import Mathlib

/-!
# Verification of the source flattener's core (`flattern.py`)

A shallow embedding of the comment scanners, the whitespace normalizer and
the chunk splitter of `flattern.py`.  Text is modelled as `List Char`
(Python `str`); every function below is a direct transcription of the
corresponding Python function, with loops turned into recursion and the
loop indices turned into explicit list consumption.  Python whitespace
(for `strip`/`rstrip`) is modelled by its ASCII subset, which covers every
character the program itself manipulates.
-/

/-- The characters Python's `str.strip()` / `str.rstrip()` remove
(ASCII subset of Python's definition of whitespace). -/
def pyWs (c : Char) : Bool :=
  c == ' ' || c == '\t' || c == '\n' || c == '\r' || c == '\x0b' || c == '\x0c'

/-- Python `s.strip()`: drop whitespace from both ends. -/
def pyStrip (l : List Char) : List Char :=
  (l.rdropWhile pyWs).dropWhile pyWs

/-- Python `s.rstrip()` applied to one line. -/
def rstripLine (l : List Char) : List Char :=
  l.rdropWhile pyWs

/-- Python `s.split("\n")`. -/
def splitNl : List Char → List (List Char)
  | [] => [[]]
  | c :: r =>
    if c = '\n' then [] :: splitNl r
    else
      match splitNl r with
      | [] => [[c]]
      | l :: ls => (c :: l) :: ls

/-- Python `"\n".join(lines)`. -/
def joinNl : List (List Char) → List Char
  | [] => []
  | [l] => l
  | l :: ls => l ++ '\n' :: joinNl ls

/-- Python `text.replace("\r\n", "\n")` (left-to-right, non-overlapping). -/
def replCrlf : List Char → List Char
  | '\r' :: '\n' :: r => '\n' :: replCrlf r
  | c :: r => c :: replCrlf r
  | [] => []

/-- Python `text.replace("\r", "\n")`. -/
def replCr (l : List Char) : List Char :=
  l.map fun c => if c = '\r' then '\n' else c

/-- Python `text.expandtabs(tabSpaces)`: replace each tab by spaces up to the
next multiple of the tab width, tracking the column, which resets after a
newline or carriage return; a non-positive tab width deletes tabs. -/
def expandTabsGo (tab : Int) : Nat → List Char → List Char
  | _, [] => []
  | col, c :: r =>
    if c = '\t' then
      if 0 < tab then
        let incr := (tab - (col : Int) % tab).toNat
        List.replicate incr ' ' ++ expandTabsGo tab (col + incr) r
      else expandTabsGo tab col r
    else if c = '\n' ∨ c = '\r' then c :: expandTabsGo tab 0 r
    else c :: expandTabsGo tab (col + 1) r

/-- The blank-line collapsing loop of `normalise_whitespace`: `run` is the
running count of consecutive blank lines; a blank line is kept only while
the count stays within `limit`. -/
def collapseGo (limit : Int) : Nat → List (List Char) → List (List Char)
  | _, [] => []
  | run, ln :: rest =>
    if ln = [] then
      if ((run : Int) + 1) ≤ limit then [] :: collapseGo limit (run + 1) rest
      else collapseGo limit (run + 1) rest
    else ln :: collapseGo limit 0 rest

/-- `normalise_whitespace(text, tab_spaces, collapse_blank_to)` from
`flattern.py`: remove the byte-order mark, canonicalize line endings,
expand tabs, right-strip each line, collapse blank-line runs, strip the
whole document, and append one final newline when nonempty. -/
def normalise_whitespace (text : List Char) (tabSpaces collapseBlankTo : Int) :
    List Char :=
  let t1 := text.filter fun c => ¬ (c = '\uFEFF')
  let t2 := replCr (replCrlf t1)
  let t3 := expandTabsGo tabSpaces 0 t2
  let lines := (splitNl t3).map rstripLine
  let collapsed := collapseGo collapseBlankTo 0 lines
  let out := pyStrip (joinNl collapsed)
  if out = [] then [] else out ++ ['\n']

/-! ## The C-like comment scanner (`strip_c_like_comments`) -/

/-- Automaton state of `strip_c_like_comments`: line comment, block comment,
string literal, char literal, pending escape, and the active quote character
(Python initializes `quote` to the empty string; it is consulted only while
`inStr` is set, after being assigned, so a placeholder character is used). -/
structure CState where
  inLine : Bool
  inBlock : Bool
  inStr : Bool
  inChar : Bool
  escape : Bool
  quote : Char
deriving Repr, DecidableEq

/-- The in-string/in-char character handling of `strip_c_like_comments`
(the branch that consumes escapes and closing quotes). -/
def cstep (st : CState) (ch : Char) : CState :=
  if st.escape then { st with escape := false }
  else if ch = '\\' then { st with escape := true }
  else if st.inStr ∧ ch = st.quote then { st with inStr := false }
  else if st.inChar ∧ ch = '\'' then { st with inChar := false }
  else st

/-- The main loop of `strip_c_like_comments`, one constructor step per loop
iteration (two characters are consumed where Python advances `i` by 2). -/
def goC (st : CState) : List Char → List Char
  | [] => []
  | ch :: rest =>
    if st.inLine then
      if ch = '\n' then '\n' :: goC { st with inLine := false } rest
      else goC st rest
    else if st.inBlock then
      match ch, rest with
      | '*', '/' :: rest2 => goC { st with inBlock := false } rest2
      | _, r => goC st r
    else if st.inStr ∨ st.inChar then
      ch :: goC (cstep st ch) rest
    else
      match ch, rest with
      | '/', '/' :: rest2 => goC { st with inLine := true } rest2
      | '/', '*' :: rest2 => goC { st with inBlock := true } rest2
      | _, r =>
        if ch = '"' ∨ ch = '`' then
          ch :: goC { st with inStr := true, quote := ch } r
        else if ch = '\'' then
          ch :: goC { st with inChar := true } r
        else ch :: goC st r

/-- Initial scanner state (everything off). -/
def cInit : CState := ⟨false, false, false, false, false, ' '⟩

/-- `strip_c_like_comments(text)` from `flattern.py`. -/
def strip_c_like_comments (text : List Char) : List Char := goC cInit text

/-! ## The SQL comment scanner (`strip_sql_comments`) -/

/-- Automaton state of `strip_sql_comments`. -/
structure SState where
  inBlock : Bool
  inStr : Bool
  escape : Bool
  quote : Char
deriving Repr, DecidableEq

/-- The in-string character handling of `strip_sql_comments`. -/
def sstep (st : SState) (ch : Char) : SState :=
  if st.escape then { st with escape := false }
  else if ch = '\\' then { st with escape := true }
  else if ch = st.quote then { st with inStr := false }
  else st

/-- The main loop of `strip_sql_comments`.  The `-- ...` skip is Python's
inner `while` loop, rendered as `dropWhile`; `fuel` decreases by one per
outer-loop iteration and every iteration consumes at least one character,
so `text.length` fuel always suffices. -/
def goSqlF (st : SState) : Nat → List Char → List Char
  | 0, _ => []
  | _, [] => []
  | fuel + 1, ch :: rest =>
    if st.inBlock then
      match ch, rest with
      | '*', '/' :: rest2 => goSqlF { st with inBlock := false } fuel rest2
      | _, _ => goSqlF st fuel rest
    else if st.inStr then
      ch :: goSqlF (sstep st ch) fuel rest
    else if ch = '\'' ∨ ch = '"' then
      ch :: goSqlF { st with inStr := true, quote := ch } fuel rest
    else
      match ch, rest with
      | '/', '*' :: rest2 => goSqlF { st with inBlock := true } fuel rest2
      | '-', '-' :: rest2 => goSqlF st fuel (rest2.dropWhile fun c => ¬ (c = '\n'))
      | _, _ => ch :: goSqlF st fuel rest

/-- Initial SQL scanner state. -/
def sInit : SState := ⟨false, false, false, ' '⟩

/-- `strip_sql_comments(text)` from `flattern.py`. -/
def strip_sql_comments (text : List Char) : List Char :=
  goSqlF sInit text.length text

/-! ## The per-line scan shared by `strip_hash_line_comments` and
`strip_python_comments` (their inner loops are character-for-character
identical in the source). -/

/-- Per-line scanner state: inside a string, its quote, pending escape. -/
structure LState where
  inStr : Bool
  quote : Char
  escape : Bool
deriving Repr, DecidableEq

/-- The in-string character handling of the per-line scanner. -/
def lstep (st : LState) (ch : Char) : LState :=
  if st.escape then { st with escape := false }
  else if ch = '\\' then { st with escape := true }
  else if ch = st.quote then { st with inStr := false }
  else st

/-- The per-line loop: outside strings a `#` ends the line's output. -/
def pyScanGo (st : LState) : List Char → List Char
  | [] => []
  | ch :: rest =>
    if st.inStr then ch :: pyScanGo (lstep st ch) rest
    else if ch = '\'' ∨ ch = '"' then
      ch :: pyScanGo { st with inStr := true, quote := ch } rest
    else if ch = '#' then []
    else ch :: pyScanGo st rest

/-- Scan one line from the initial state. -/
def scanLine (l : List Char) : List Char := pyScanGo ⟨false, ' ', false⟩ l

/-- `strip_hash_line_comments(text)` from `flattern.py`. -/
def strip_hash_line_comments (text : List Char) : List Char :=
  joinNl ((splitNl (replCr (replCrlf text))).map scanLine)

/-! ## The Python scanner (`strip_python_comments`) -/

/-- Python `line.find(sub)`: index of the first occurrence, if any. -/
def findSub (pat : List Char) : List Char → Option Nat
  | [] => if pat.isPrefixOf [] then some 0 else none
  | c :: r =>
    if pat.isPrefixOf (c :: r) then some 0
    else (findSub pat r).map (· + 1)

/-- Python `sub in line`. -/
def hasSub (pat l : List Char) : Bool := (findSub pat l).isSome

/-- The triple-quote delimiter of three single quotes. -/
def tripleSgl : List Char := List.replicate 3 '\''

/-- The triple-quote delimiter of three double quotes. -/
def tripleDbl : List Char := List.replicate 3 '"'

/-- The line loop of `strip_python_comments`: `sd` is `strip_docstrings`;
`inTriple`/`tq` carry the triple-quote state across lines.  While inside a
triple-quoted region, a line without the delimiter is dropped (`continue`);
a line with it keeps only the part after the delimiter, and that remainder
(like any ordinary line) is searched for a fresh opener, trying the
single-quote delimiter first, truncating the line at the opener; finally
the kept line text goes through the `#`-and-string scan. -/
def pyLinesGo (sd : Bool) : Bool → List Char → List (List Char) → List (List Char)
  | _, _, [] => []
  | inTriple, tq, line :: rest =>
    if sd then
      match (if inTriple then (findSub tq line).map (fun k => line.drop (k + 3))
             else some line) with
      | none => pyLinesGo sd true tq rest
      | some l1 =>
        match findSub tripleSgl l1 with
        | some k => scanLine (l1.take k) :: pyLinesGo sd true tripleSgl rest
        | none =>
          match findSub tripleDbl l1 with
          | some k => scanLine (l1.take k) :: pyLinesGo sd true tripleDbl rest
          | none => scanLine l1 :: pyLinesGo sd false tq rest
    else scanLine line :: pyLinesGo sd inTriple tq rest

/-- `strip_python_comments(text, strip_docstrings)` from `flattern.py`
(Python initializes `triple_quote` to the empty string; it is consulted
only while `in_triple` is set, after being assigned). -/
def strip_python_comments (text : List Char) (stripDocstrings : Bool) : List Char :=
  joinNl (pyLinesGo stripDocstrings false [] (splitNl (replCr (replCrlf text))))

/-! ## The HTML comment scanner (`strip_html_comments`) -/

/-- The HTML comment opener. -/
def htmlOpen : List Char := "<!--".toList

/-- The HTML comment closer. -/
def htmlClose : List Char := "-->".toList

/-- `re.sub(r"<!--.*?-->", "", text, flags=re.DOTALL)`: repeatedly remove
the leftmost `<!--` together with everything up to and including the
earliest following `-->`; an opener with no later closer matches nothing
and is left in place.  One removal consumes at least seven characters, so
`text.length` fuel always suffices. -/
def stripHtmlF : Nat → List Char → List Char
  | 0, text => text
  | fuel + 1, text =>
    match findSub htmlOpen text with
    | none => text
    | some i =>
      match findSub htmlClose (text.drop (i + 4)) with
      | none => text
      | some j => text.take i ++ stripHtmlF fuel (text.drop (i + 4 + j + 3))

/-- `strip_html_comments(text)` from `flattern.py`. -/
def strip_html_comments (text : List Char) : List Char :=
  stripHtmlF text.length text

/-! ## The chunk splitter (`chunk_text`) -/

/-- Does `pat` occur in `text` at position `i`? -/
def matchAt (text pat : List Char) (i : Nat) : Bool :=
  (text.drop i).take pat.length == pat

/-- Python `text.rfind(pat, s, e)`: the largest `i` with `s ≤ i`,
`i + pat.length ≤ e` and `pat` occurring at `i` (`none` for `-1`). -/
def rfindSub (text pat : List Char) (s e : Nat) : Option Nat :=
  ((List.range e).filter fun i =>
    decide (s ≤ i) && decide (i + pat.length ≤ e) && matchAt text pat i).getLast?

/-- The boundary-marker search pattern `"\n===== FILE:"`. -/
def markerPat : List Char := "\n===== FILE:".toList

/-- The blank-line search pattern `"\n\n"`. -/
def blankPat : List Char := "\n\n".toList

/-- Python `text[a:b]`. -/
def pySlice (text : List Char) (a b : Nat) : List Char := (text.take b).drop a

/-- The split-point selection of one `chunk_text` loop iteration: take the
window end `min(start + maxCh, len)`; if the window does not reach the end
of the text, prefer the last boundary-marker position strictly after
`start`, then the last blank-line position strictly after `start`, else
cut at the window end. -/
def splitEnd (text : List Char) (maxCh : Nat) (start : Nat) : Nat :=
  let e := min (start + maxCh) text.length
  if e < text.length then
    match rfindSub text markerPat start e with
    | some p =>
      if p ≤ start then
        match rfindSub text blankPat start e with
        | some q => if q ≤ start then e else q
        | none => e
      else p
    | none =>
      match rfindSub text blankPat start e with
      | some q => if q ≤ start then e else q
      | none => e
  else e

/-- The `chunk_text` loop: slice `[start, splitEnd)`, strip it, emit it with
a trailing newline when nonempty, continue at the split position.  `fuel`
decreases by one per iteration; the scan position strictly advances, so
`text.length` fuel always suffices. -/
def chunkGo (text : List Char) (maxCh : Nat) : Nat → Nat → List (List Char)
  | 0, _ => []
  | fuel + 1, start =>
    if start < text.length then
      if pyStrip (pySlice text start (splitEnd text maxCh start)) = [] then
        chunkGo text maxCh fuel (splitEnd text maxCh start)
      else
        (pyStrip (pySlice text start (splitEnd text maxCh start)) ++ ['\n'])
          :: chunkGo text maxCh fuel (splitEnd text maxCh start)
    else []

/-- `chunk_text(text, max_chunk_chars)` from `flattern.py`: a non-positive
budget, or a text that already fits, short-circuits to the text itself
(or to no chunks when the text is empty). -/
def chunk_text (text : List Char) (maxChunkChars : Int) : List (List Char) :=
  if maxChunkChars ≤ 0 ∨ (text.length : Int) ≤ maxChunkChars then
    if text = [] then [] else [text]
  else chunkGo text maxChunkChars.toNat text.length 0

/-! ## Spec-side notions used to state the chunking claims -/

/-- The cut positions cover the whole document in order. -/
def cutsCover (cuts : List Nat) (n : Nat) : Prop :=
  cuts.Chain' (· < ·) ∧ cuts.head? = some 0 ∧ cuts.getLast? = some n

/-- The rendering the spec describes: each consecutive pair of cuts yields
the slice between them, stripped, with one trailing newline, all-whitespace
slices omitted. -/
def renderCuts (text : List Char) (cuts : List Nat) : List (List Char) :=
  (cuts.zip cuts.tail).filterMap fun p =>
    let seg := pyStrip (pySlice text p.1 p.2)
    if seg = [] then none else some (seg ++ ['\n'])

/-- The text of a boundary-marker line. -/
def markerBody : List Char := "===== FILE:".toList

/-- `[a, b)` spans (part of) a boundary-marker line: nonempty, in range,
beginning with the marker text and containing no newline. -/
def markerLineSpan (text : List Char) (a b : Nat) : Prop :=
  a < b ∧ b ≤ text.length ∧ markerBody.isPrefixOf (pySlice text a b) ∧
    '\n' ∉ pySlice text a b

/-! ## Helper lemmas about `rfindSub` -/

theorem getLast?_mem_self {α : Type} {l : List α} {a : α}
    (h : l.getLast? = some a) : a ∈ l := by
  obtain ⟨hne, rfl⟩ :=
    List.mem_getLast?_eq_getLast (show a ∈ l.getLast? by rw [h]; rfl)
  exact List.getLast_mem hne

theorem getLast?_pairwise_le {l : List Nat} {p : Nat}
    (hp : l.Pairwise (· < ·)) (h : l.getLast? = some p) :
    ∀ q ∈ l, q ≤ p := by
  induction l with
  | nil => simp at h
  | cons a l ih =>
    rcases l with _ | ⟨b, l⟩
    · simp at h
      subst h
      simp
    · rw [List.getLast?_cons_cons] at h
      intro q hq
      rcases List.mem_cons.mp hq with rfl | hq
      · have hap : p ∈ b :: l := getLast?_mem_self h
        exact le_of_lt ((List.pairwise_cons.mp hp).1 p hap)
      · exact ih (List.pairwise_cons.mp hp).2 h q hq

theorem rfindSub_some {text pat : List Char} {s e p : Nat}
    (h : rfindSub text pat s e = some p) :
    s ≤ p ∧ p + pat.length ≤ e ∧ matchAt text pat p = true ∧ p < e ∧
      ∀ q, q < e → s ≤ q → q + pat.length ≤ e → matchAt text pat q = true →
        q ≤ p := by
  have hmem := getLast?_mem_self h
  have hmem' := List.mem_filter.mp hmem
  have hrange := List.mem_range.mp hmem'.1
  have hcond := hmem'.2
  simp only [Bool.and_eq_true, decide_eq_true_eq] at hcond
  refine ⟨hcond.1.1, hcond.1.2, hcond.2, hrange, ?_⟩
  intro q hq hsq hqe hm
  have hpw : (List.range e).Pairwise (· < ·) := List.pairwise_lt_range e
  refine getLast?_pairwise_le (List.Pairwise.filter _ hpw) h q ?_
  refine List.mem_filter.mpr ⟨List.mem_range.mpr hq, ?_⟩
  simp only [Bool.and_eq_true, decide_eq_true_eq]
  exact ⟨⟨hsq, hqe⟩, hm⟩

theorem rfindSub_none {text pat : List Char} {s e : Nat}
    (h : rfindSub text pat s e = none) :
    ∀ q, q < e → s ≤ q → q + pat.length ≤ e → matchAt text pat q = true →
      False := by
  intro q hq hsq hqe hm
  have hnil : ((List.range e).filter fun i =>
      decide (s ≤ i) && decide (i + pat.length ≤ e) && matchAt text pat i)
      = [] := List.getLast?_eq_none_iff.mp h
  have := List.filter_eq_nil_iff.mp hnil q (List.mem_range.mpr hq)
  simp only [Bool.and_eq_true, decide_eq_true_eq] at this
  exact this ⟨⟨hsq, hqe⟩, hm⟩

/-! ## C9: the chunk splitter's scan position strictly advances -/

theorem splitEnd_advance (text : List Char) (maxCh start : Nat)
    (hm : 0 < maxCh) (hs : start < text.length) :
    start < splitEnd text maxCh start ∧ splitEnd text maxCh start ≤ text.length := by
  unfold splitEnd
  have he1 : start < min (start + maxCh) text.length := by omega
  have he2 : min (start + maxCh) text.length ≤ text.length := by omega
  by_cases hlt : min (start + maxCh) text.length < text.length
  · simp only [if_pos hlt]
    rcases hmk : rfindSub text markerPat start (min (start + maxCh) text.length) with _ | p
    · rcases hbl : rfindSub text blankPat start (min (start + maxCh) text.length) with _ | q
      · exact ⟨he1, he2⟩
      · have hq := rfindSub_some hbl
        by_cases hqs : q ≤ start
        · simp only [if_pos hqs]
          exact ⟨he1, he2⟩
        · simp only [if_neg hqs]
          omega
    · have hp := rfindSub_some hmk
      by_cases hps : p ≤ start
      · simp only [if_pos hps]
        rcases hbl : rfindSub text blankPat start (min (start + maxCh) text.length) with _ | q
        · exact ⟨he1, he2⟩
        · have hq := rfindSub_some hbl
          by_cases hqs : q ≤ start
          · simp only [if_pos hqs]
            exact ⟨he1, he2⟩
          · simp only [if_neg hqs]
            omega
      · simp only [if_neg hps]
        omega
  · simp only [if_neg hlt]
    exact ⟨he1, he2⟩

/-- **C9.** For every text, positive budget and in-range scan position, the
split position chosen by one `chunk_text` loop iteration strictly exceeds
the current position and stays within the text, so every iteration of the
loop advances and the splitter is total (its recursion consumes that
strictly decreasing distance as fuel). -/
theorem C9_scan_advances (text : List Char) (maxCh start : Nat)
    (hm : 0 < maxCh) (hs : start < text.length) :
    start < splitEnd text maxCh start ∧ splitEnd text maxCh start ≤ text.length :=
  splitEnd_advance text maxCh start hm hs

/-- Witness for C9 at a concrete input. -/
theorem C9_witness :
    0 < splitEnd ("ab\n\ncd\n\nef".toList) 7 0 ∧
      splitEnd ("ab\n\ncd\n\nef".toList) 7 0 ≤ ("ab\n\ncd\n\nef".toList).length :=
  C9_scan_advances ("ab\n\ncd\n\nef".toList) 7 0 (by decide) (by decide)

/-! ## C10: the non-positive / fits-in-budget fast path -/

/-- **C10.** A non-positive chunk budget (or a text no longer than the
budget) short-circuits `chunk_text`: no splitting and no trimming happen,
the whole text is returned as the single chunk when nonempty, and the
empty text yields no chunks. -/
theorem C10_fast_path (text : List Char) (m : Int)
    (h : m ≤ 0 ∨ (text.length : Int) ≤ m) :
    chunk_text text m = if text = [] then [] else [text] := by
  unfold chunk_text
  rw [if_pos h]

/-- Witness for C10 at concrete inputs. -/
theorem C10_witness : chunk_text ("ab".toList) (-3) = ["ab".toList] := by
  have h := C10_fast_path ("ab".toList) (-3) (Or.inl (by decide))
  simpa using h

/-! ## C2: an escaped quote never terminates a literal -/

/-- **C2.** In every literal-aware scanner, from an in-string (or in-char)
state with no pending escape, a backslash followed by any character `c`
(the escaped quote included) emits both characters and returns to the very
same state: the backslash sets the escape flag, the flag suppresses the
closing-quote test for exactly the one following character, and the
literal stays open. -/
theorem goC_str (st : CState) (h1 : st.inLine = false) (h2 : st.inBlock = false)
    (h3 : st.inStr = true ∨ st.inChar = true) (ch : Char) (rest : List Char) :
    goC st (ch :: rest) = ch :: goC (cstep st ch) rest := by
  conv_lhs => rw [goC.eq_def]
  simp only [h1, h2, Bool.false_eq_true, if_false]
  rcases h3 with h3 | h3 <;> simp [h3]

theorem C2_escape_handling (q c : Char) (rest : List Char) :
    goC ⟨false, false, true, false, false, q⟩ ('\\' :: c :: rest)
        = '\\' :: c :: goC ⟨false, false, true, false, false, q⟩ rest
    ∧ goC ⟨false, false, false, true, false, q⟩ ('\\' :: c :: rest)
        = '\\' :: c :: goC ⟨false, false, false, true, false, q⟩ rest
    ∧ goSqlF ⟨false, true, false, q⟩ (rest.length + 2) ('\\' :: c :: rest)
        = '\\' :: c :: goSqlF ⟨false, true, false, q⟩ rest.length rest
    ∧ pyScanGo ⟨true, q, false⟩ ('\\' :: c :: rest)
        = '\\' :: c :: pyScanGo ⟨true, q, false⟩ rest := by
  refine ⟨?_, ?_, ?_, ?_⟩
  · rw [goC_str _ rfl rfl (Or.inl rfl), goC_str _ rfl rfl (Or.inl rfl)]
    simp [cstep]
  · rw [goC_str _ rfl rfl (Or.inr rfl), goC_str _ rfl rfl (Or.inr rfl)]
    simp [cstep]
  · simp [goSqlF, sstep]
  · simp [pyScanGo, lstep]

/-! ## Helper lemmas about `isPrefixOf`, `findSub` and `hasSub` -/

theorem isPrefixOf_ex {pat l : List Char} (h : pat.isPrefixOf l = true) :
    ∃ r, l = pat ++ r := by
  induction pat generalizing l with
  | nil => exact ⟨l, rfl⟩
  | cons a as ih =>
    cases l with
    | nil => simp [List.isPrefixOf] at h
    | cons b bs =>
      simp only [List.isPrefixOf, Bool.and_eq_true, beq_iff_eq] at h
      obtain ⟨rfl, h2⟩ := h
      obtain ⟨r, rfl⟩ := ih h2
      exact ⟨r, rfl⟩

theorem isPrefixOf_append_self (pat r : List Char) :
    pat.isPrefixOf (pat ++ r) = true := by
  induction pat with
  | nil => simp [List.isPrefixOf]
  | cons a as ih => simp [List.isPrefixOf, ih]

theorem hasSub_eq_true_iff (pat l : List Char) :
    hasSub pat l = true ↔ ∃ a b, l = a ++ pat ++ b := by
  constructor
  · intro h
    induction l with
    | nil =>
      simp only [hasSub, findSub] at h
      by_cases hp : pat.isPrefixOf [] = true
      · obtain ⟨r, hr⟩ := isPrefixOf_ex hp
        exact ⟨[], r, by simpa using hr⟩
      · simp [hp] at h
    | cons c r ih =>
      simp only [hasSub, findSub] at h
      by_cases hp : pat.isPrefixOf (c :: r) = true
      · obtain ⟨t, ht⟩ := isPrefixOf_ex hp
        exact ⟨[], t, by simpa using ht⟩
      · simp only [hp, Bool.false_eq_true, if_false] at h
        have h2 : hasSub pat r = true := by
          unfold hasSub
          cases hf : findSub pat r
          · rw [hf] at h
            simp at h
          · simp
        obtain ⟨a, b, rfl⟩ := ih h2
        exact ⟨c :: a, b, rfl⟩
  · rintro ⟨a, b, rfl⟩
    induction a with
    | nil =>
      simp only [hasSub, List.nil_append]
      cases hp : pat ++ b with
      | nil =>
        have hpn : pat = [] := by
          cases pat
          · rfl
          · simp at hp
        subst hpn
        simp [findSub, List.isPrefixOf]
      | cons c r =>
        have hpre : pat.isPrefixOf (c :: r) = true := by
          rw [← hp]
          exact isPrefixOf_append_self pat b
        rw [findSub, if_pos hpre]
        rfl
    | cons c a ih =>
      by_cases hp : pat.isPrefixOf (c :: (a ++ pat ++ b)) = true
      · unfold hasSub
        rw [show (c :: a) ++ pat ++ b = c :: (a ++ pat ++ b) from rfl]
        rw [findSub, if_pos hp]
        rfl
      · unfold hasSub
        rw [show (c :: a) ++ pat ++ b = c :: (a ++ pat ++ b) from rfl]
        rw [findSub, if_neg hp]
        unfold hasSub at ih
        cases hf : findSub pat (a ++ (pat ++ b)) with
        | none =>
          rw [List.append_assoc] at ih
          rw [hf] at ih
          simp at ih
        | some v => simp [hf]

theorem hasSub_false_tail {pat : List Char} {c : Char} {r : List Char}
    (h : hasSub pat (c :: r) = false) : hasSub pat r = false := by
  by_contra hr
  rw [Bool.not_eq_false, hasSub_eq_true_iff] at hr
  obtain ⟨a, b, rfl⟩ := hr
  rw [show c :: (a ++ pat ++ b) = (c :: a) ++ pat ++ b from rfl] at h
  rw [(hasSub_eq_true_iff pat _).mpr ⟨c :: a, b, rfl⟩] at h
  exact Bool.true_eq_false.mp h

theorem hasSub_false_drop {pat t : List Char} (k : Nat)
    (h : hasSub pat t = false) : hasSub pat (t.drop k) = false := by
  by_contra hr
  rw [Bool.not_eq_false, hasSub_eq_true_iff] at hr
  obtain ⟨a, b, hab⟩ := hr
  have h2 : t = (t.take k ++ a) ++ pat ++ b := by
    conv_lhs => rw [← List.take_append_drop k t, hab]
    simp only [List.append_assoc]
  rw [(hasSub_eq_true_iff pat t).mpr ⟨t.take k ++ a, b, h2⟩] at h
  exact Bool.true_eq_false.mp h

/-! ## Run lemmas: literal bodies pass through the scanners verbatim -/

theorem goC_inStr_run (q : Char) (s rest : List Char)
    (h1 : '\\' ∉ s) (h2 : q ∉ s) :
    goC ⟨false, false, true, false, false, q⟩ (s ++ rest)
      = s ++ goC ⟨false, false, true, false, false, q⟩ rest := by
  induction s with
  | nil => rfl
  | cons c s ih =>
    have hc1 : c ≠ '\\' := fun h => h1 (h ▸ List.mem_cons_self c s)
    have hc2 : c ≠ q := fun h => h2 (h ▸ List.mem_cons_self c s)
    rw [List.cons_append, goC_str _ rfl rfl (Or.inl rfl)]
    have hstep : cstep ⟨false, false, true, false, false, q⟩ c
        = ⟨false, false, true, false, false, q⟩ := by
      simp [cstep, hc1, hc2]
    rw [hstep, ih (fun h => h1 (List.mem_cons_of_mem c h))
      (fun h => h2 (List.mem_cons_of_mem c h))]
    rfl

theorem goC_inChar_run (s rest : List Char)
    (h1 : '\\' ∉ s) (h2 : '\'' ∉ s) (q : Char) :
    goC ⟨false, false, false, true, false, q⟩ (s ++ rest)
      = s ++ goC ⟨false, false, false, true, false, q⟩ rest := by
  induction s with
  | nil => rfl
  | cons c s ih =>
    have hc1 : c ≠ '\\' := fun h => h1 (h ▸ List.mem_cons_self c s)
    have hc2 : c ≠ '\'' := fun h => h2 (h ▸ List.mem_cons_self c s)
    rw [List.cons_append, goC_str _ rfl rfl (Or.inr rfl)]
    have hstep : cstep ⟨false, false, false, true, false, q⟩ c
        = ⟨false, false, false, true, false, q⟩ := by
      simp [cstep, hc1, hc2]
    rw [hstep, ih (fun h => h1 (List.mem_cons_of_mem c h))
      (fun h => h2 (List.mem_cons_of_mem c h))]
    rfl

theorem goSqlF_str (st : SState) (h2 : st.inBlock = false) (h3 : st.inStr = true)
    (fuel : Nat) (ch : Char) (rest : List Char) :
    goSqlF st (fuel + 1) (ch :: rest) = ch :: goSqlF (sstep st ch) fuel rest := by
  conv_lhs => rw [goSqlF.eq_def]
  simp [h2, h3]

theorem goSqlF_inStr_run (q : Char) (s rest : List Char) (fuel : Nat)
    (h1 : '\\' ∉ s) (h2 : q ∉ s) :
    goSqlF ⟨false, true, false, q⟩ (s.length + fuel) (s ++ rest)
      = s ++ goSqlF ⟨false, true, false, q⟩ fuel rest := by
  induction s with
  | nil => simp
  | cons c s ih =>
    have hc1 : c ≠ '\\' := fun h => h1 (h ▸ List.mem_cons_self c s)
    have hc2 : c ≠ q := fun h => h2 (h ▸ List.mem_cons_self c s)
    have hl : (c :: s).length + fuel = (s.length + fuel) + 1 := by
      simp [List.length_cons]
      omega
    rw [List.cons_append, hl, goSqlF_str _ rfl rfl]
    have hstep : sstep ⟨false, true, false, q⟩ c = ⟨false, true, false, q⟩ := by
      simp [sstep, hc1, hc2]
    rw [hstep, ih (fun h => h1 (List.mem_cons_of_mem c h))
      (fun h => h2 (List.mem_cons_of_mem c h))]
    rfl

theorem pyScanGo_inStr_run (q : Char) (s rest : List Char)
    (h1 : '\\' ∉ s) (h2 : q ∉ s) :
    pyScanGo ⟨true, q, false⟩ (s ++ rest)
      = s ++ pyScanGo ⟨true, q, false⟩ rest := by
  induction s with
  | nil => rfl
  | cons c s ih =>
    have hc1 : c ≠ '\\' := fun h => h1 (h ▸ List.mem_cons_self c s)
    have hc2 : c ≠ q := fun h => h2 (h ▸ List.mem_cons_self c s)
    have hstep : lstep ⟨true, q, false⟩ c = ⟨true, q, false⟩ := by
      simp [lstep, hc1, hc2]
    rw [List.cons_append, pyScanGo]
    simp only [if_true, hstep]
    rw [ih (fun h => h1 (List.mem_cons_of_mem c h))
      (fun h => h2 (List.mem_cons_of_mem c h))]
    rfl

/-! ## Unterminated-construct lemmas -/

theorem hasSub_starSlash (x : List Char) :
    hasSub (['*', '/']) ('*' :: '/' :: x) = true :=
  (hasSub_eq_true_iff _ _).mpr ⟨[], x, rfl⟩

theorem goC_inBlock_drop (st : CState) (h1 : st.inLine = false)
    (h2 : st.inBlock = true) :
    ∀ s : List Char, hasSub ("*/".toList) s = false → goC st s = [] := by
  intro s
  induction s with
  | nil =>
    intro _
    rfl
  | cons c r ih =>
    intro hno
    have hr := hasSub_false_tail hno
    conv_lhs => rw [goC.eq_def]
    simp only [h1, h2, Bool.false_eq_true, if_false, if_true]
    split
    · simp [hasSub_starSlash] at hno
    · exact ih hr

theorem goSqlF_inBlock_drop (st : SState) (h2 : st.inBlock = true) :
    ∀ (fuel : Nat) (s : List Char), hasSub ("*/".toList) s = false →
      goSqlF st fuel s = [] := by
  intro fuel
  induction fuel with
  | zero =>
    intro s _
    cases s <;> rfl
  | succ fuel ih =>
    intro s hno
    cases s with
    | nil => rfl
    | cons c r =>
      conv_lhs => rw [goSqlF.eq_def]
      simp only [h2, if_true]
      split
      · simp [hasSub_starSlash] at hno
      · exact ih r (hasSub_false_tail hno)

theorem stripHtmlF_id {t : List Char} (h : hasSub htmlClose t = false) :
    ∀ fuel, stripHtmlF fuel t = t := by
  intro fuel
  cases fuel with
  | zero => rfl
  | succ fuel =>
    rw [stripHtmlF]
    cases ho : findSub htmlOpen t with
    | none => rfl
    | some i =>
      have hd : hasSub htmlClose (t.drop (i + 4)) = false := hasSub_false_drop _ h
      cases hc : findSub htmlClose (t.drop (i + 4)) with
      | none => simp [hc]
      | some j =>
        exfalso
        unfold hasSub at hd
        rw [hc] at hd
        simp at hd


/-! ## C6: failure semantics on malformed input -/

/-- **C6 counterexample.**  The claim says every block-comment scanner drops
the remainder of the input after an unterminated block-comment opener.  The
HTML scanner does not: `re.sub` leaves an unclosed `<!--` (and everything
after it) in place, so `strip_html_comments("a<!--b")` returns the input
unchanged instead of `"a"`. -/
theorem C6_counterexample :
    strip_html_comments ("a<!--b".toList) = "a<!--b".toList ∧
      strip_html_comments ("a<!--b".toList) ≠ "a".toList := by
  constructor
  · decide
  · decide

/-- **C6** (amended).  Every scanner is a total function by construction and
malformed input degrades: an unterminated `/* ...` block drops the rest of
the input in the C-like and SQL scanners, while the HTML scanner leaves an
unclosed `<!--` and everything after it in place; an unterminated string
literal is preserved verbatim to the end of input. -/
theorem C6_graceful_degradation :
    (∀ s : List Char, hasSub ("*/".toList) s = false →
        strip_c_like_comments ('/' :: '*' :: s) = [])
    ∧ (∀ s : List Char, hasSub ("*/".toList) s = false →
        strip_sql_comments ('/' :: '*' :: s) = [])
    ∧ (∀ s : List Char, '"' ∉ s → '\\' ∉ s →
        strip_c_like_comments ('"' :: s) = '"' :: s)
    ∧ (∀ (q : Char) (s : List Char), q = '\'' ∨ q = '"' → q ∉ s → '\\' ∉ s →
        strip_sql_comments (q :: s) = q :: s)
    ∧ (∀ t : List Char, hasSub ("-->".toList) t = false →
        strip_html_comments t = t) := by
  refine ⟨?_, ?_, ?_, ?_, ?_⟩
  · intro s hno
    have h0 : strip_c_like_comments ('/' :: '*' :: s)
        = goC ⟨false, true, false, false, false, ' '⟩ s := by
      simp [strip_c_like_comments, goC, cInit]
    rw [h0]
    exact goC_inBlock_drop _ rfl rfl s hno
  · intro s hno
    have h0 : strip_sql_comments ('/' :: '*' :: s)
        = goSqlF ⟨true, false, false, ' '⟩ (s.length + 1) s := by
      show goSqlF sInit ((s.length + 1) + 1) ('/' :: '*' :: s) = _
      conv_lhs => rw [goSqlF.eq_def]
      simp [sInit]
    rw [h0]
    exact goSqlF_inBlock_drop _ rfl _ s hno
  · intro s h1 h2
    have h0 : strip_c_like_comments ('"' :: s)
        = '"' :: goC ⟨false, false, true, false, false, '"'⟩ s := by
      simp [strip_c_like_comments, goC, cInit]
    rw [h0]
    have hrun := goC_inStr_run '"' s [] h2 h1
    rw [List.append_nil] at hrun
    rw [hrun]
    have hz : goC ⟨false, false, true, false, false, '"'⟩ [] = [] := rfl
    rw [hz, List.append_nil]
  · intro q s hq h1 h2
    have hq' : q ≠ '\\' := by
      rcases hq with rfl | rfl <;> decide
    have h0 : strip_sql_comments (q :: s)
        = q :: goSqlF ⟨false, true, false, q⟩ s.length s := by
      show goSqlF sInit (s.length + 1) (q :: s) = _
      conv_lhs => rw [goSqlF.eq_def]
      rcases hq with rfl | rfl <;> simp [sInit]
    rw [h0]
    have hrun := goSqlF_inStr_run q s [] 0 h2 h1
    rw [List.append_nil, Nat.add_zero] at hrun
    rw [hrun]
    have hz : goSqlF ⟨false, true, false, q⟩ 0 [] = [] := rfl
    rw [hz, List.append_nil]
  · intro t hno
    exact stripHtmlF_id hno t.length

/-- Witness for C6 at concrete inputs. -/
theorem C6_witness :
    strip_c_like_comments ('/' :: '*' :: "abc".toList) = []
    ∧ strip_sql_comments ('/' :: '*' :: "abc".toList) = []
    ∧ strip_c_like_comments ('"' :: "abc".toList) = '"' :: "abc".toList
    ∧ strip_sql_comments ('"' :: "abc".toList) = '"' :: "abc".toList
    ∧ strip_html_comments ("x<!--y".toList) = "x<!--y".toList := by
  refine ⟨C6_graceful_degradation.1 _ (by decide),
    C6_graceful_degradation.2.1 _ (by decide),
    C6_graceful_degradation.2.2.1 _ (by decide) (by decide),
    C6_graceful_degradation.2.2.2.1 '"' _ (Or.inr rfl) (by decide) (by decide),
    C6_graceful_degradation.2.2.2.2 _ (by decide)⟩

/-! ## Lemmas about newline normalization and line splitting -/

theorem replCrlf_cons_ne {c : Char} (hc : c ≠ '\r') (l : List Char) :
    replCrlf (c :: l) = c :: replCrlf l := by
  conv_lhs => rw [replCrlf.eq_def]
  split
  · rename_i heq
    obtain ⟨hc1, hc2⟩ := List.cons.inj heq
    exact absurd hc1 hc
  · rename_i c2 r2 heq
    obtain ⟨rfl, rfl⟩ := List.cons.inj heq
    rfl
  · rename_i heq
    exact absurd heq (by simp)

theorem replCrlf_append_no_cr {x : List Char} (hx : '\r' ∉ x) (y : List Char) :
    replCrlf (x ++ y) = x ++ replCrlf y := by
  induction x with
  | nil => rfl
  | cons c x ih =>
    have hc : c ≠ '\r' := fun h => hx (h ▸ List.mem_cons_self c x)
    rw [List.cons_append, replCrlf_cons_ne hc,
      ih (fun h => hx (List.mem_cons_of_mem c h))]
    rfl

theorem replCr_append (x y : List Char) :
    replCr (x ++ y) = replCr x ++ replCr y := by
  simp [replCr]

theorem replCr_no_cr {x : List Char} (hx : '\r' ∉ x) : replCr x = x := by
  induction x with
  | nil => rfl
  | cons c x ih =>
    have hc : c ≠ '\r' := fun h => hx (h ▸ List.mem_cons_self c x)
    have ih' := ih (fun h => hx (List.mem_cons_of_mem c h))
    simp only [replCr, List.map_cons] at ih' ⊢
    rw [if_neg hc, ih']

theorem splitNl_ne_nil (l : List Char) : splitNl l ≠ [] := by
  cases l with
  | nil => simp [splitNl]
  | cons c r =>
    rw [splitNl]
    by_cases hc : c = '\n'
    · simp [hc]
    · simp only [hc, if_false]
      cases splitNl r <;> simp

theorem splitNl_append_no_nl {x : List Char} (hx : '\n' ∉ x) (y : List Char) :
    splitNl (x ++ y) = (x ++ (splitNl y).headI) :: (splitNl y).tail := by
  induction x with
  | nil =>
    cases hy : splitNl y with
    | nil => exact absurd hy (splitNl_ne_nil y)
    | cons l ls => simp [hy]
  | cons c x ih =>
    have hc : c ≠ '\n' := fun h => hx (h ▸ List.mem_cons_self c x)
    have ih' := ih (fun h => hx (List.mem_cons_of_mem c h))
    rw [List.cons_append, splitNl, if_neg hc, ih']
    simp

theorem pyScanGo_open (st : LState) (h : st.inStr = false) {ch : Char}
    (hq : ch = '\'' ∨ ch = '"') (rest : List Char) :
    pyScanGo st (ch :: rest)
      = ch :: pyScanGo ⟨true, ch, st.escape⟩ rest := by
  rcases hq with rfl | rfl <;>
    simp [pyScanGo, h]

theorem pyLinesGo_false (b : Bool) (tq : List Char) (ls : List (List Char)) :
    pyLinesGo false b tq ls = ls.map scanLine := by
  induction ls with
  | nil => rfl
  | cons l ls ih => simp [pyLinesGo, ih]

theorem joinNl_cons_ex (l : List Char) (ls : List (List Char)) :
    ∃ t, joinNl (l :: ls) = l ++ t := by
  cases ls with
  | nil => exact ⟨[], by simp [joinNl]⟩
  | cons m ms => exact ⟨'\n' :: joinNl (m :: ms), rfl⟩

/-! ## Scanner entry/exit step lemmas -/

theorem goC_open_str {q : Char} (hq : q = '"' ∨ q = '`') (rest : List Char) :
    goC cInit (q :: rest) = q :: goC ⟨false, false, true, false, false, q⟩ rest := by
  rcases hq with rfl | rfl <;> simp [goC, cInit]

theorem goC_open_char (rest : List Char) :
    goC cInit ('\'' :: rest)
      = '\'' :: goC ⟨false, false, false, true, false, ' '⟩ rest := by
  simp [goC, cInit]

theorem goSqlF_open {q : Char} (hq : q = '\'' ∨ q = '"') (m : Nat)
    (rest : List Char) :
    goSqlF sInit (m + 1) (q :: rest)
      = q :: goSqlF ⟨false, true, false, q⟩ m rest := by
  rcases hq with rfl | rfl
  · conv_lhs => rw [goSqlF.eq_def]
    simp [sInit]
  · conv_lhs => rw [goSqlF.eq_def]
    simp [sInit]

theorem pyScanGo_str (st : LState) (h : st.inStr = true) (ch : Char)
    (rest : List Char) :
    pyScanGo st (ch :: rest) = ch :: pyScanGo (lstep st ch) rest := by
  conv_lhs => rw [pyScanGo.eq_def]
  simp [h]

theorem scanLine_open {ch : Char} (hq : ch = '\'' ∨ ch = '"') (rest : List Char) :
    scanLine (ch :: rest) = ch :: pyScanGo ⟨true, ch, false⟩ rest := by
  rcases hq with rfl | rfl <;> simp [scanLine, pyScanGo]

/-! ## C1: string literals with comment-opener-like content survive -/

/-- The hash-line scanner preserves a leading string literal verbatim. -/
theorem hash_literal_pres (q : Char) (s post : List Char)
    (hq : q = '\'' ∨ q = '"') (hqs : q ∉ s) (h3 : '\\' ∉ s)
    (h4 : '\n' ∉ s) (h5 : '\r' ∉ s) :
    ∃ t, strip_hash_line_comments (q :: s ++ q :: post) = q :: s ++ q :: t := by
  have hqr : q ≠ '\r' := by rcases hq with rfl | rfl <;> decide
  have hqn : q ≠ '\n' := by rcases hq with rfl | rfl <;> decide
  have hql : q ≠ '\\' := by rcases hq with rfl | rfl <;> decide
  have hlit_cr : '\r' ∉ q :: s ++ [q] := by
    intro h
    rcases List.mem_cons.mp h with h | h
    · exact hqr h.symm
    · rcases List.mem_append.mp h with h | h
      · exact h5 h
      · simp at h
        exact hqr h.symm
  have hlit_nl : '\n' ∉ q :: s ++ [q] := by
    intro h
    rcases List.mem_cons.mp h with h | h
    · exact hqn h.symm
    · rcases List.mem_append.mp h with h | h
      · exact h4 h
      · simp at h
        exact hqn h.symm
  have hin : q :: s ++ q :: post = (q :: s ++ [q]) ++ post := by simp
  have hX : replCr (replCrlf (q :: s ++ q :: post))
      = (q :: s ++ [q]) ++ replCr (replCrlf post) := by
    rw [hin, replCrlf_append_no_cr hlit_cr, replCr_append, replCr_no_cr hlit_cr]
  have hsplit : splitNl ((q :: s ++ [q]) ++ replCr (replCrlf post))
      = ((q :: s ++ [q]) ++ (splitNl (replCr (replCrlf post))).headI)
        :: (splitNl (replCr (replCrlf post))).tail :=
    splitNl_append_no_nl hlit_nl _
  have hlstep : lstep ⟨true, q, false⟩ q = ⟨false, q, false⟩ := by
    simp [lstep, hql]
  have hline : scanLine ((q :: s ++ [q]) ++ (splitNl (replCr (replCrlf post))).headI)
      = q :: s ++ q ::
          pyScanGo ⟨false, q, false⟩ (splitNl (replCr (replCrlf post))).headI := by
    have e1 : (q :: s ++ [q]) ++ (splitNl (replCr (replCrlf post))).headI
        = q :: (s ++ (q :: (splitNl (replCr (replCrlf post))).headI)) := by simp
    rw [e1, scanLine_open hq,
      pyScanGo_inStr_run q s _ h3 hqs,
      pyScanGo_str _ rfl, hlstep]
    rfl
  obtain ⟨t0, ht0⟩ := joinNl_cons_ex
    (q :: s ++ q :: pyScanGo ⟨false, q, false⟩ (splitNl (replCr (replCrlf post))).headI)
    ((splitNl (replCr (replCrlf post))).tail.map scanLine)
  refine ⟨pyScanGo ⟨false, q, false⟩ (splitNl (replCr (replCrlf post))).headI ++ t0, ?_⟩
  show joinNl ((splitNl (replCr (replCrlf (q :: s ++ q :: post)))).map scanLine) = _
  rw [hX, hsplit, List.map_cons, hline, ht0]
  simp

/-- **C1 counterexample.**  HTML-block stripping is not literal-aware: the
string literal `"<!-- x -->"` does not survive `strip_html_comments`; its
body is removed outright, so the output cannot contain the literal
verbatim. -/
theorem C1_counterexample :
    strip_html_comments ("\"<!-- x -->\"".toList) = ['"', '"'] ∧
      ¬ ∃ a b : List Char,
        strip_html_comments ("\"<!-- x -->\"".toList)
          = a ++ "\"<!-- x -->\"".toList ++ b := by
  constructor
  · decide
  · rintro ⟨a, b, hab⟩
    have h1 : (strip_html_comments ("\"<!-- x -->\"".toList)).length = 2 := by decide
    rw [hab] at h1
    simp [List.length_append] at h1
    omega

/-- **C1** (amended).  In the four literal-aware scanners (C-like, SQL-like,
hash-line, and the Python scanner's comment-stripping mode), a string (or,
for C-like with a single quote, char) literal whose body contains no quote,
backslash or line break — so in particular a body like `http://example.com`
or `/* -- # <!--` — survives stripping verbatim: the output starts with the
literal unchanged.  The HTML scanner is excluded: it removes complete
`<!-- ... -->` spans even inside string literals (see the counterexample). -/
theorem C1_literal_preservation (q : Char) (s post : List Char)
    (hq : q = '\'' ∨ q = '"')
    (h1 : '\'' ∉ s) (h2 : '"' ∉ s) (h3 : '\\' ∉ s)
    (h4 : '\n' ∉ s) (h5 : '\r' ∉ s) :
    (∃ t, strip_c_like_comments (q :: s ++ q :: post) = q :: s ++ q :: t)
    ∧ (∃ t, strip_sql_comments (q :: s ++ q :: post) = q :: s ++ q :: t)
    ∧ (∃ t, strip_hash_line_comments (q :: s ++ q :: post) = q :: s ++ q :: t)
    ∧ (∃ t, strip_python_comments (q :: s ++ q :: post) false = q :: s ++ q :: t) := by
  have hqs : q ∉ s := by
    rcases hq with rfl | rfl
    · exact h1
    · exact h2
  have hql : q ≠ '\\' := by rcases hq with rfl | rfl <;> decide
  refine ⟨?_, ?_, ?_, ?_⟩
  · rcases hq with rfl | rfl
    · refine ⟨goC ⟨false, false, false, false, false, ' '⟩ post, ?_⟩
      show goC cInit ('\'' :: (s ++ '\'' :: post)) = _
      rw [goC_open_char, goC_inChar_run s ('\'' :: post) h3 h1,
        goC_str _ rfl rfl (Or.inr rfl)]
      have hcs : cstep ⟨false, false, false, true, false, ' '⟩ '\''
          = ⟨false, false, false, false, false, ' '⟩ := by decide
      rw [hcs]
      rfl
    · refine ⟨goC ⟨false, false, false, false, false, '"'⟩ post, ?_⟩
      show goC cInit ('"' :: (s ++ '"' :: post)) = _
      rw [goC_open_str (Or.inl rfl), goC_inStr_run '"' s ('"' :: post) h3 h2,
        goC_str _ rfl rfl (Or.inl rfl)]
      have hcs : cstep ⟨false, false, true, false, false, '"'⟩ '"'
          = ⟨false, false, false, false, false, '"'⟩ := by decide
      rw [hcs]
      rfl
  · have hsstep : sstep ⟨false, true, false, q⟩ q = ⟨false, false, false, q⟩ := by
      simp [sstep, hql]
    refine ⟨goSqlF ⟨false, false, false, q⟩ post.length post, ?_⟩
    have hlen : (q :: s ++ q :: post).length = (s.length + (post.length + 1)) + 1 := by
      simp
    show goSqlF sInit (q :: s ++ q :: post).length (q :: (s ++ q :: post)) = _
    rw [hlen, goSqlF_open hq, goSqlF_inStr_run q s (q :: post) (post.length + 1) h3 hqs,
      goSqlF_str _ rfl rfl, hsstep]
    rfl
  · exact hash_literal_pres q s post hq hqs h3 h4 h5
  · obtain ⟨t, ht⟩ := hash_literal_pres q s post hq hqs h3 h4 h5
    refine ⟨t, ?_⟩
    show joinNl (pyLinesGo false false [] (splitNl (replCr (replCrlf (q :: s ++ q :: post))))) = _
    rw [pyLinesGo_false]
    exact ht

/-- Witness for C1 at a concrete input: the literal
`"http://example.com"` survives all four literal-aware scanners. -/
theorem C1_witness :
    (∃ t, strip_c_like_comments ('"' :: "http://example.com".toList ++ '"' :: "x = 1".toList)
        = '"' :: "http://example.com".toList ++ '"' :: t)
    ∧ (∃ t, strip_sql_comments ('"' :: "http://example.com".toList ++ '"' :: "x = 1".toList)
        = '"' :: "http://example.com".toList ++ '"' :: t)
    ∧ (∃ t, strip_hash_line_comments ('"' :: "http://example.com".toList ++ '"' :: "x = 1".toList)
        = '"' :: "http://example.com".toList ++ '"' :: t)
    ∧ (∃ t, strip_python_comments ('"' :: "http://example.com".toList ++ '"' :: "x = 1".toList) false
        = '"' :: "http://example.com".toList ++ '"' :: t) :=
  C1_literal_preservation '"' ("http://example.com".toList) ("x = 1".toList)
    (Or.inr rfl) (by decide) (by decide) (by decide) (by decide) (by decide)

/-! ## Lemmas for the Python triple-quote scanner -/

theorem splitNl_no_nl {l : List Char} (h : '\n' ∉ l) : splitNl l = [l] := by
  induction l with
  | nil => rfl
  | cons c r ih =>
    have hc : c ≠ '\n' := fun hx => h (hx ▸ List.mem_cons_self c r)
    rw [splitNl, if_neg hc, ih (fun hx => h (List.mem_cons_of_mem c hx))]

theorem splitNl_joinNl {ls : List (List Char)} (h : ∀ l ∈ ls, '\n' ∉ l)
    (hne : ls ≠ []) : splitNl (joinNl ls) = ls := by
  induction ls with
  | nil => exact absurd rfl hne
  | cons l ls ih =>
    cases ls with
    | nil => exact splitNl_no_nl (h l (List.mem_cons_self l []))
    | cons m ms =>
      rw [show joinNl (l :: m :: ms) = l ++ '\n' :: joinNl (m :: ms) from rfl,
        splitNl_append_no_nl (h l (List.mem_cons_self l _)),
        show splitNl ('\n' :: joinNl (m :: ms)) = [] :: splitNl (joinNl (m :: ms)) by
          rw [splitNl]
          simp,
        ih (fun x hx => h x (List.mem_cons_of_mem l hx)) (by simp)]
      simp

theorem mem_joinNl {c : Char} {ls : List (List Char)} (h : c ∈ joinNl ls) :
    (∃ l ∈ ls, c ∈ l) ∨ c = '\n' := by
  induction ls with
  | nil => simp [joinNl] at h
  | cons l ls ih =>
    cases ls with
    | nil => exact Or.inl ⟨l, List.mem_cons_self l [], by simpa [joinNl] using h⟩
    | cons m ms =>
      rw [show joinNl (l :: m :: ms) = l ++ '\n' :: joinNl (m :: ms) from rfl] at h
      rcases List.mem_append.mp h with h | h
      · exact Or.inl ⟨l, List.mem_cons_self l _, h⟩
      · rcases List.mem_cons.mp h with rfl | h
        · exact Or.inr rfl
        · rcases ih h with ⟨l2, hl2, hc⟩ | h
          · exact Or.inl ⟨l2, List.mem_cons_of_mem l hl2, hc⟩
          · exact Or.inr h

theorem replCrlf_no_cr {x : List Char} (hx : '\r' ∉ x) : replCrlf x = x := by
  have h := replCrlf_append_no_cr hx []
  have h2 : replCrlf ([] : List Char) = [] := rfl
  rw [List.append_nil, h2, List.append_nil] at h
  exact h

theorem hasSub_false_none {pat l : List Char} (h : hasSub pat l = false) :
    findSub pat l = none := by
  unfold hasSub at h
  cases hf : findSub pat l
  · rfl
  · rw [hf] at h
    simp at h

theorem findSub_triple_at {a : List Char} (ha : '\'' ∉ a) (x : List Char) :
    findSub tripleSgl (a ++ tripleSgl ++ x) = some a.length := by
  induction a with
  | nil =>
    rw [List.nil_append]
    cases hp : tripleSgl ++ x with
    | nil => simp [tripleSgl] at hp
    | cons c r =>
      rw [findSub, if_pos (hp ▸ isPrefixOf_append_self tripleSgl x)]
      rfl
  | cons c a ih =>
    have hc : c ≠ '\'' := fun hx => ha (hx ▸ List.mem_cons_self c a)
    have hnp : tripleSgl.isPrefixOf (c :: (a ++ tripleSgl ++ x)) = false := by
      show (List.replicate 3 '\'').isPrefixOf _ = false
      simp [List.replicate, List.isPrefixOf]
      intro h
      exact absurd h.symm hc
    rw [show (c :: a) ++ tripleSgl ++ x = c :: (a ++ tripleSgl ++ x) from rfl,
      findSub]
    rw [if_neg (by simp only [hnp]; simp)]
    rw [ih (fun hx => ha (List.mem_cons_of_mem c hx))]
    rfl

theorem pyLinesGo_open_line (tq0 a b : List Char) (ha : '\'' ∉ a)
    (rest : List (List Char)) :
    pyLinesGo true false tq0 ((a ++ tripleSgl ++ b) :: rest)
      = scanLine a :: pyLinesGo true true tripleSgl rest := by
  have hfind : findSub tripleSgl (a ++ (tripleSgl ++ b)) = some a.length := by
    rw [← List.append_assoc]
    exact findSub_triple_at ha b
  have htake : (a ++ (tripleSgl ++ b)).take a.length = a := List.take_left a _
  rw [pyLinesGo]
  simp [hfind, htake]

theorem pyLinesGo_drop_mid (mid : List (List Char))
    (hmid : ∀ l ∈ mid, hasSub tripleSgl l = false) (rest : List (List Char)) :
    pyLinesGo true true tripleSgl (mid ++ rest)
      = pyLinesGo true true tripleSgl rest := by
  induction mid with
  | nil => rfl
  | cons m mid ih =>
    rw [List.cons_append, pyLinesGo]
    simp [hasSub_false_none (hmid m (List.mem_cons_self m mid))]
    exact ih fun l hl => hmid l (List.mem_cons_of_mem m hl)

theorem pyLinesGo_close (e f : List Char) (he : '\'' ∉ e)
    (hf1 : hasSub tripleSgl f = false) (hf2 : hasSub tripleDbl f = false)
    (post : List (List Char)) :
    pyLinesGo true true tripleSgl ((e ++ tripleSgl ++ f) :: post)
      = scanLine f :: pyLinesGo true false tripleSgl post := by
  have hfind : findSub tripleSgl (e ++ (tripleSgl ++ f)) = some e.length := by
    rw [← List.append_assoc]
    exact findSub_triple_at he f
  have hdrop : (e ++ (tripleSgl ++ f)).drop (e.length + 3) = f := by
    rw [show e ++ (tripleSgl ++ f) = (e ++ tripleSgl) ++ f by
        simp [List.append_assoc],
      show e.length + 3 = (e ++ tripleSgl).length by simp [tripleSgl]]
    exact List.drop_left _ f
  rw [pyLinesGo]
  simp [hfind, hdrop, hasSub_false_none hf1, hasSub_false_none hf2]

/-! ## C4: triple-quote removal under docstring stripping -/

/-- **C4 counterexample.**  For the input `a = '''d''' + b` followed by the
line `c = 1`, with docstring stripping enabled, the claim predicts that the
text after the one-line triple-quoted string (`+ b`) is kept and the next
line survives.  The code instead truncates the opening line at the opener,
stays in triple-string mode, and swallows the following line: the output is
just `a = `, and `c = 1` occurs nowhere in it. -/
theorem C4_counterexample :
    strip_python_comments
        (("a = ".toList ++ tripleSgl ++ "d".toList ++ tripleSgl ++ " + b".toList)
          ++ '\n' :: "c = 1".toList) true
      = "a = ".toList ∧
    ¬ ∃ a b : List Char,
      strip_python_comments
          (("a = ".toList ++ tripleSgl ++ "d".toList ++ tripleSgl ++ " + b".toList)
            ++ '\n' :: "c = 1".toList) true
        = a ++ "c = 1".toList ++ b := by
  constructor
  · decide
  · rintro ⟨a, b, hab⟩
    have h1 : (strip_python_comments
        (("a = ".toList ++ tripleSgl ++ "d".toList ++ tripleSgl ++ " + b".toList)
          ++ '\n' :: "c = 1".toList) true).length = 4 := by decide
    rw [hab] at h1
    simp [List.length_append] at h1
    omega

/-- **C4** (amended).  With docstring stripping enabled, the Python scanner
removes a `'''`-delimited region wholesale wherever it occurs, not only as
a canonical docstring: on the opening line only the text before the opener
is kept, every following line up to the closing delimiter is dropped
entirely, and on the closing line only the text after the delimiter is kept
(both kept pieces then go through the ordinary `#`-and-string scan, and the
rest of the document is processed normally).  In particular, the text after
the opener on the opening line — even when the region closes on that very
line — is discarded rather than preserved. -/
theorem C4_triple_quote_removal (a b e f : List Char) (mid post : List (List Char))
    (ha : '\'' ∉ a) (he : '\'' ∉ e)
    (hmid : ∀ l ∈ mid, hasSub tripleSgl l = false)
    (hf1 : hasSub tripleSgl f = false) (hf2 : hasSub tripleDbl f = false)
    (hnl : ∀ l ∈ (a ++ tripleSgl ++ b) :: (mid ++ (e ++ tripleSgl ++ f) :: post),
        '\n' ∉ l)
    (hcr : ∀ l ∈ (a ++ tripleSgl ++ b) :: (mid ++ (e ++ tripleSgl ++ f) :: post),
        '\r' ∉ l) :
    strip_python_comments
        (joinNl ((a ++ tripleSgl ++ b) :: (mid ++ (e ++ tripleSgl ++ f) :: post)))
        true
      = joinNl (scanLine a :: scanLine f :: pyLinesGo true false tripleSgl post) := by
  have hjcr : '\r' ∉ joinNl ((a ++ tripleSgl ++ b) :: (mid ++ (e ++ tripleSgl ++ f) :: post)) := by
    intro h
    rcases mem_joinNl h with ⟨l, hl, hc⟩ | h
    · exact hcr l hl hc
    · simp at h
  show joinNl (pyLinesGo true false []
      (splitNl (replCr (replCrlf _)))) = _
  rw [replCrlf_no_cr hjcr, replCr_no_cr hjcr, splitNl_joinNl hnl (by simp),
    pyLinesGo_open_line [] a b ha, pyLinesGo_drop_mid mid hmid,
    pyLinesGo_close e f he hf1 hf2]

/-- Witness for C4 at a concrete input (a triple-quoted region spanning
three lines, with text before the opener and after the closer kept). -/
theorem C4_witness :
    strip_python_comments
        (joinNl (("x = ".toList ++ tripleSgl ++ "doc".toList)
          :: (["mid line".toList] ++ ("end".toList ++ tripleSgl ++ " + 1".toList)
              :: ["z = 2".toList]))) true
      = joinNl (scanLine ("x = ".toList) :: scanLine (" + 1".toList)
          :: pyLinesGo true false tripleSgl ["z = 2".toList]) := by
  have h := C4_triple_quote_removal ("x = ".toList) ("doc".toList) ("end".toList)
    (" + 1".toList) ["mid line".toList] ["z = 2".toList]
    (by decide) (by decide) (by decide) (by decide) (by decide)
    (by decide) (by decide)
  simpa using h

/-! ## Lemmas about `pyStrip` and `splitEnd` bounds -/

theorem rdrop_after_drop {p : Char → Bool} {z : List Char}
    (hz : z.rdropWhile p = z) :
    (z.dropWhile p).rdropWhile p = z.dropWhile p := by
  rw [List.rdropWhile_eq_self_iff]
  intro hne
  obtain ⟨t, ht⟩ := List.dropWhile_suffix (l := z) p
  have hzne : z ≠ [] := by
    intro h
    rw [h] at ht
    have : z.dropWhile p = [] := by
      rw [h]
      simp
    exact hne this
  have h1 : z.getLast? = some (z.getLast hzne) :=
    List.getLast?_eq_getLast_of_ne_nil hzne
  have h2 : (z.dropWhile p).getLast? = some ((z.dropWhile p).getLast hne) :=
    List.getLast?_eq_getLast_of_ne_nil hne
  have h3 : (t ++ z.dropWhile p).getLast? = (z.dropWhile p).getLast? :=
    List.getLast?_append_of_ne_nil t hne
  rw [ht] at h3
  rw [h1, h2] at h3
  have h4 : (z.dropWhile p).getLast hne = z.getLast hzne := by
    injection h3.symm
  rw [h4]
  exact List.rdropWhile_eq_self_iff.mp hz hzne

theorem pyStrip_rdrop_fixed (l : List Char) :
    (pyStrip l).rdropWhile pyWs = pyStrip l :=
  rdrop_after_drop (List.rdropWhile_idempotent pyWs l)

theorem pyStrip_concat_nl (l : List Char) :
    pyStrip (pyStrip l ++ ['\n']) = pyStrip l := by
  have h1 : (pyStrip l ++ ['\n']).rdropWhile pyWs = (pyStrip l).rdropWhile pyWs :=
    List.rdropWhile_concat_pos pyWs (pyStrip l) '\n' (by decide)
  show ((pyStrip l ++ ['\n']).rdropWhile pyWs).dropWhile pyWs = pyStrip l
  rw [h1, pyStrip_rdrop_fixed l]
  show ((l.rdropWhile pyWs).dropWhile pyWs).dropWhile pyWs = pyStrip l
  rw [List.dropWhile_idempotent]
  rfl

theorem pyStrip_length_le (l : List Char) : (pyStrip l).length ≤ l.length := by
  unfold pyStrip
  calc ((l.rdropWhile pyWs).dropWhile pyWs).length
      ≤ (l.rdropWhile pyWs).length := ((l.rdropWhile pyWs).dropWhile_sublist pyWs).length_le
    _ ≤ l.length := (List.rdropWhile_prefix pyWs l).sublist.length_le

theorem splitEnd_le_budget (text : List Char) (maxCh start : Nat) :
    splitEnd text maxCh start ≤ start + maxCh := by
  unfold splitEnd
  have he : min (start + maxCh) text.length ≤ start + maxCh := by omega
  by_cases hlt : min (start + maxCh) text.length < text.length
  · simp only [if_pos hlt]
    rcases hmk : rfindSub text markerPat start (min (start + maxCh) text.length) with _ | p
    · rcases hbl : rfindSub text blankPat start (min (start + maxCh) text.length) with _ | q
      · exact he
      · have hq := rfindSub_some hbl
        by_cases hqs : q ≤ start
        · simp only [if_pos hqs]
          exact he
        · simp only [if_neg hqs]
          omega
    · have hp := rfindSub_some hmk
      by_cases hps : p ≤ start
      · simp only [if_pos hps]
        rcases hbl : rfindSub text blankPat start (min (start + maxCh) text.length) with _ | q
        · exact he
        · have hq := rfindSub_some hbl
          by_cases hqs : q ≤ start
          · simp only [if_pos hqs]
            exact he
          · simp only [if_neg hqs]
            omega
      · simp only [if_neg hps]
        omega
  · simp only [if_neg hlt]
    exact he

theorem pySlice_length_le (text : List Char) (a b : Nat) :
    (pySlice text a b).length ≤ b - a := by
  unfold pySlice
  rw [List.length_drop, List.length_take]
  omega

/-! ## C3: chunk invariants -/

theorem chunkGo_mem {text : List Char} {maxCh : Nat} :
    ∀ (fuel start : Nat), ∀ c ∈ chunkGo text maxCh fuel start,
      pyStrip c ≠ [] ∧ c.length ≤ maxCh + 1 := by
  intro fuel
  induction fuel with
  | zero =>
    intro start c hc
    simp [chunkGo] at hc
  | succ fuel ih =>
    intro start c hc
    rw [chunkGo] at hc
    by_cases hs : start < text.length
    · simp only [if_pos hs] at hc
      by_cases hz : pyStrip (pySlice text start (splitEnd text maxCh start)) = []
      · rw [if_pos hz] at hc
        exact ih _ c hc
      · rw [if_neg hz] at hc
        rcases List.mem_cons.mp hc with rfl | hc
        · refine ⟨?_, ?_⟩
          · rw [pyStrip_concat_nl]
            exact hz
          · rw [List.length_append]
            have hb := splitEnd_le_budget text maxCh start
            have hl1 := pyStrip_length_le (pySlice text start (splitEnd text maxCh start))
            have hl2 := pySlice_length_le text start (splitEnd text maxCh start)
            simp only [List.length_cons, List.length_nil]
            omega
        · exact ih _ c hc
    · simp [hs] at hc

/-- **C3 counterexample.**  With budget 10 and the 20-character text
`aaaaaaaaaaaaaaaaaaaa`, the splitter hard-cuts at the budget and appends a
newline to each stripped piece, emitting two chunks of 11 > 10 characters —
so chunks can exceed the budget even though no single unavoidable unit
does, and the oversized run is not emitted whole either.  Moreover an
all-whitespace text within budget is returned unchanged as one chunk that
is empty after trimming. -/
theorem C3_counterexample :
    chunk_text (List.replicate 20 'a') 10
        = [List.replicate 10 'a' ++ ['\n'], List.replicate 10 'a' ++ ['\n']]
    ∧ (List.replicate 10 'a' ++ ['\n']).length = 11
    ∧ chunk_text ("   ".toList) 10 = ["   ".toList]
    ∧ pyStrip ("   ".toList) = [] := by
  refine ⟨by decide, by decide, by decide, by decide⟩

/-- **C3** (amended).  For a positive budget: a text that already fits is
returned unchanged as the single chunk (no trimming, possibly all
whitespace); when the text exceeds the budget, every emitted chunk is
non-empty after trimming, its trimmed content is at most the budget, and
the chunk itself (trimmed content plus the appended newline) is at most
budget + 1 characters; an oversized unit is hard-cut at the budget rather
than emitted whole. -/
theorem C3_chunk_invariants (text : List Char) (m : Int) (hm : 0 < m) :
    ((text.length : Int) ≤ m → chunk_text text m = if text = [] then [] else [text])
    ∧ ((m : Int) < text.length → ∀ c ∈ chunk_text text m,
        pyStrip c ≠ [] ∧ c.length ≤ m.toNat + 1) := by
  constructor
  · intro h
    unfold chunk_text
    rw [if_pos (Or.inr h)]
  · intro h c hc
    unfold chunk_text at hc
    rw [if_neg (by omega)] at hc
    exact chunkGo_mem text.length 0 c hc

/-- Witness for C3 at a concrete input. -/
theorem C3_witness :
    ((("ab\n\ncd\n\nef".toList).length : Int) ≤ 4 →
      chunk_text ("ab\n\ncd\n\nef".toList) 4
        = if "ab\n\ncd\n\nef".toList = [] then [] else ["ab\n\ncd\n\nef".toList])
    ∧ ((4 : Int) < ("ab\n\ncd\n\nef".toList).length →
      ∀ c ∈ chunk_text ("ab\n\ncd\n\nef".toList) 4,
        pyStrip c ≠ [] ∧ c.length ≤ (4 : Int).toNat + 1) :=
  C3_chunk_invariants ("ab\n\ncd\n\nef".toList) 4 (by decide)

/-! ## C7: chunks reconstruct the document -/

theorem chunkGo_at_end {text : List Char} {maxCh : Nat} (fuel s : Nat)
    (hs : ¬ s < text.length) : chunkGo text maxCh fuel s = [] := by
  cases fuel with
  | zero => rfl
  | succ fuel => simp [chunkGo, hs]

theorem getLast?_cons_of_ne_nil {α : Type} {a : α} {l : List α} (h : l ≠ []) :
    (a :: l).getLast? = l.getLast? := by
  have := List.getLast?_append_of_ne_nil [a] h
  simpa using this

theorem chunkGo_render (text : List Char) (maxCh : Nat) (hmax : 0 < maxCh) :
    ∀ fuel start, start < text.length → text.length - start ≤ fuel →
      ∃ cuts : List Nat, cuts.Chain' (· < ·) ∧ cuts.head? = some start ∧
        cuts.getLast? = some text.length ∧
        chunkGo text maxCh fuel start = renderCuts text cuts := by
  intro fuel
  induction fuel with
  | zero =>
    intro start hs hf
    omega
  | succ fuel ih =>
    intro start hs hf
    have hadv := splitEnd_advance text maxCh start hmax hs
    rw [chunkGo, if_pos hs]
    by_cases he : splitEnd text maxCh start < text.length
    · obtain ⟨cuts, hchain, hhead, hlast, heq⟩ :=
        ih (splitEnd text maxCh start) he (by omega)
      refine ⟨start :: cuts, ?_, rfl, ?_, ?_⟩
      · rw [List.chain'_cons']
        refine ⟨?_, hchain⟩
        intro b hb
        rw [hhead] at hb
        simp at hb
        omega
      · rw [getLast?_cons_of_ne_nil (by
          intro h
          rw [h] at hhead
          simp at hhead)]
        exact hlast
      · obtain ⟨cs, rfl⟩ : ∃ cs, cuts = splitEnd text maxCh start :: cs := by
          cases cuts with
          | nil => simp at hhead
          | cons x xs =>
            simp at hhead
            exact ⟨xs, by rw [hhead]⟩
        rw [heq]
        unfold renderCuts
        simp only [List.tail_cons, List.zip_cons_cons, List.filterMap_cons]
        by_cases hz : pyStrip (pySlice text start (splitEnd text maxCh start)) = []
        · simp [hz]
        · simp [hz]
    · have hend : splitEnd text maxCh start = text.length := by omega
      refine ⟨[start, text.length], ?_, rfl, rfl, ?_⟩
      · simp [List.chain'_cons]
        omega
      · rw [chunkGo_at_end fuel _ (by omega)]
        unfold renderCuts
        rw [hend]
        by_cases hz : pyStrip (pySlice text start text.length) = []
        · simp [hz]
        · simp [hz]

theorem renderCuts_mem_last {text : List Char} {cuts : List Nat} {c : List Char}
    (hc : c ∈ renderCuts text cuts) : c.getLast? = some '\n' := by
  unfold renderCuts at hc
  obtain ⟨p, hp, hpc⟩ := List.mem_filterMap.mp hc
  by_cases hz : pyStrip (pySlice text p.1 p.2) = []
  · simp [hz] at hpc
  · simp only [hz, if_neg, if_false, Option.some_inj] at hpc
    rw [← hpc]
    exact List.getLast?_concat _

/-- **C7 counterexample.**  When the text fits within the budget it is
returned unchanged — without the per-chunk trim and trailing newline the
claim describes — so the single chunk `"  ab"` is not of the stripped,
newline-terminated form produced from any segment decomposition. -/
theorem C7_counterexample :
    chunk_text ("  ab".toList) 10 = ["  ab".toList]
    ∧ ∀ cuts : List Nat,
        renderCuts ("  ab".toList) cuts ≠ chunk_text ("  ab".toList) 10 := by
  constructor
  · decide
  · intro cuts hcut
    have hm : ("  ab".toList) ∈ renderCuts ("  ab".toList) cuts := by
      rw [hcut, show chunk_text ("  ab".toList) 10 = ["  ab".toList] by decide]
      simp
    have hlast := renderCuts_mem_last hm
    exact absurd hlast (by decide)

/-- **C7** (amended).  When the text exceeds a positive budget, the splitter
partitions the document into consecutive segments, in order, and emits for
each segment its stripped text with one trailing newline, omitting
all-whitespace segments — so the ordered chunks reconstruct the document up
to exactly that per-chunk normalization.  When the text fits within the
budget it is instead returned unchanged as the single chunk (see the
counterexample). -/
theorem C7_reconstruction (text : List Char) (m : Int) (h1 : 0 < m)
    (h2 : (m : Int) < text.length) :
    ∃ cuts : List Nat, cutsCover cuts text.length ∧
      chunk_text text m = renderCuts text cuts := by
  unfold chunk_text
  rw [if_neg (by omega)]
  obtain ⟨cuts, hchain, hhead, hlast, heq⟩ :=
    chunkGo_render text m.toNat (by omega) text.length 0 (by omega) (by omega)
  exact ⟨cuts, ⟨hchain, hhead, hlast⟩, heq⟩

/-- Witness for C7 at a concrete input. -/
theorem C7_witness :
    ∃ cuts : List Nat, cutsCover cuts (("ab\n\ncd\n\nef".toList).length) ∧
      chunk_text ("ab\n\ncd\n\nef".toList) 4
        = renderCuts ("ab\n\ncd\n\nef".toList) cuts :=
  C7_reconstruction ("ab\n\ncd\n\nef".toList) 4 (by decide) (by decide)

/-! ## C8: split-point priority and marker-line integrity -/

theorem matchAt_head {text : List Char} {p : Nat} {c : Char} {ps pat : List Char}
    (hpat : pat = c :: ps) (h : matchAt text pat p = true) :
    text[p]? = some c := by
  subst hpat
  unfold matchAt at h
  rw [beq_iff_eq] at h
  cases hdrop : text.drop p with
  | nil =>
    rw [hdrop] at h
    simp at h
  | cons x xs =>
    rw [hdrop, List.length_cons, List.take_succ_cons] at h
    have hx : x = c := (List.cons.inj h).1
    rw [← List.head?_drop, hdrop, hx]
    rfl

theorem span_not_divided {text : List Char} {e a b : Nat}
    (hnl : text[e]? = some '\n') (hspan : markerLineSpan text a b)
    (hae : a < e) (heb : e < b) : False := by
  obtain ⟨hab, hble, hpre, hnonl⟩ := hspan
  apply hnonl
  have h1 : (pySlice text a b)[e - a]? = some '\n' := by
    unfold pySlice
    rw [List.getElem?_drop]
    have hea : a + (e - a) = e := by omega
    rw [hea, List.getElem?_take]
    simp [heb, hnl]
  obtain ⟨hlt, heq⟩ := List.getElem?_eq_some.mp h1
  rw [← heq]
  exact List.getElem_mem hlt

theorem splitEnd_marker (text : List Char) (maxCh start : Nat)
    (hw : start + maxCh < text.length)
    (hex : ∃ p, start < p ∧ p + markerPat.length ≤ start + maxCh ∧
      matchAt text markerPat p = true) :
    start < splitEnd text maxCh start
    ∧ matchAt text markerPat (splitEnd text maxCh start) = true
    ∧ ∀ p, start < p → p + markerPat.length ≤ start + maxCh →
        matchAt text markerPat p = true → p ≤ splitEnd text maxCh start := by
  obtain ⟨p, hp1, hp2, hp3⟩ := hex
  have hmin : min (start + maxCh) text.length = start + maxCh := by omega
  have hlen : 0 < markerPat.length := by decide
  have hpe : p < start + maxCh := by omega
  rcases hmk : rfindSub text markerPat start (start + maxCh) with _ | p2
  · exact absurd hp3 (fun h => rfindSub_none hmk p hpe (le_of_lt hp1) hp2 h)
  · have hsome := rfindSub_some hmk
    have hple : p ≤ p2 := hsome.2.2.2.2 p hpe (le_of_lt hp1) hp2 hp3
    have hsplit : splitEnd text maxCh start = p2 := by
      unfold splitEnd
      rw [hmin, if_pos hw]
      simp only [hmk]
      rw [if_neg (by omega)]
    rw [hsplit]
    refine ⟨by omega, hsome.2.2.1, ?_⟩
    intro r hr1 hr2 hr3
    exact hsome.2.2.2.2 r (by omega) (le_of_lt hr1) hr2 hr3

theorem splitEnd_blank (text : List Char) (maxCh start : Nat)
    (hw : start + maxCh < text.length)
    (hnoM : ∀ p, start < p → p + markerPat.length ≤ start + maxCh →
      matchAt text markerPat p = true → False)
    (hex : ∃ q, start < q ∧ q + blankPat.length ≤ start + maxCh ∧
      matchAt text blankPat q = true) :
    start < splitEnd text maxCh start
    ∧ matchAt text blankPat (splitEnd text maxCh start) = true
    ∧ ∀ q, start < q → q + blankPat.length ≤ start + maxCh →
        matchAt text blankPat q = true → q ≤ splitEnd text maxCh start := by
  obtain ⟨q, hq1, hq2, hq3⟩ := hex
  have hmin : min (start + maxCh) text.length = start + maxCh := by omega
  have hlen : 0 < blankPat.length := by decide
  have hqe : q < start + maxCh := by omega
  rcases hbl : rfindSub text blankPat start (start + maxCh) with _ | q2
  · exact absurd hq3 (fun h => rfindSub_none hbl q hqe (le_of_lt hq1) hq2 h)
  · have hsome := rfindSub_some hbl
    have hqle : q ≤ q2 := hsome.2.2.2.2 q hqe (le_of_lt hq1) hq2 hq3
    have hsplit : splitEnd text maxCh start = q2 := by
      unfold splitEnd
      rw [hmin, if_pos hw]
      rcases hmk : rfindSub text markerPat start (start + maxCh) with _ | p2
      · simp only [hbl]
        rw [if_neg (by omega)]
      · have hp2 := rfindSub_some hmk
        have hp2le : p2 ≤ start := by
          by_contra hgt
          exact hnoM p2 (by omega) hp2.2.1 hp2.2.2.1
        simp only [hmk]
        rw [if_pos hp2le]
        simp only [hbl]
        rw [if_neg (by omega)]
    rw [hsplit]
    refine ⟨by omega, hsome.2.2.1, ?_⟩
    intro r hr1 hr2 hr3
    exact hsome.2.2.2.2 r (by omega) (le_of_lt hr1) hr2 hr3

theorem splitEnd_hard (text : List Char) (maxCh start : Nat)
    (hw : start + maxCh < text.length)
    (hnoM : ∀ p, start < p → p + markerPat.length ≤ start + maxCh →
      matchAt text markerPat p = true → False)
    (hnoB : ∀ q, start < q → q + blankPat.length ≤ start + maxCh →
      matchAt text blankPat q = true → False) :
    splitEnd text maxCh start = start + maxCh := by
  have hmin : min (start + maxCh) text.length = start + maxCh := by omega
  unfold splitEnd
  rw [hmin, if_pos hw]
  have hblank : ∀ q2, rfindSub text blankPat start (start + maxCh) = some q2 →
      q2 ≤ start := by
    intro q2 hbl
    have hq2 := rfindSub_some hbl
    by_contra hgt
    exact hnoB q2 (by omega) hq2.2.1 hq2.2.2.1
  rcases hmk : rfindSub text markerPat start (start + maxCh) with _ | p2
  · rcases hbl : rfindSub text blankPat start (start + maxCh) with _ | q2
    · rfl
    · simp [hblank q2 hbl]
  · have hp2 := rfindSub_some hmk
    have hp2le : p2 ≤ start := by
      by_contra hgt
      exact hnoM p2 (by omega) hp2.2.1 hp2.2.2.1
    rcases hbl : rfindSub text blankPat start (start + maxCh) with _ | q2
    · simp [hp2le]
    · simp [hp2le, hblank q2 hbl]

/-- **C8.** With the window `[start, start + maxCh)` strictly inside the
text, the split point is chosen by priority: (1) if a boundary-marker
pattern occurs strictly after `start` and within the budget, the split is
the most recent such position; (2) otherwise, if a blank line (`"\n\n"`)
occurs strictly after `start` and within the budget, the split is the most
recent such position; (3) otherwise the cut is made exactly at the budget.
Whenever a legal in-budget split point exists (case 1 or 2), the chosen
split position carries a newline, so it never falls strictly inside a
boundary-marker line: no marker line is divided across two chunks. -/
theorem C8_split_point_priority (text : List Char) (maxCh start : Nat)
    (hm : 0 < maxCh) (hw : start + maxCh < text.length) :
    ((∃ p, start < p ∧ p + markerPat.length ≤ start + maxCh ∧
        matchAt text markerPat p = true) →
      start < splitEnd text maxCh start
      ∧ matchAt text markerPat (splitEnd text maxCh start) = true
      ∧ ∀ p, start < p → p + markerPat.length ≤ start + maxCh →
          matchAt text markerPat p = true → p ≤ splitEnd text maxCh start)
    ∧ ((¬ ∃ p, start < p ∧ p + markerPat.length ≤ start + maxCh ∧
        matchAt text markerPat p = true) →
      (∃ q, start < q ∧ q + blankPat.length ≤ start + maxCh ∧
        matchAt text blankPat q = true) →
      start < splitEnd text maxCh start
      ∧ matchAt text blankPat (splitEnd text maxCh start) = true
      ∧ ∀ q, start < q → q + blankPat.length ≤ start + maxCh →
          matchAt text blankPat q = true → q ≤ splitEnd text maxCh start)
    ∧ ((¬ ∃ p, start < p ∧ p + markerPat.length ≤ start + maxCh ∧
        matchAt text markerPat p = true) →
      (¬ ∃ q, start < q ∧ q + blankPat.length ≤ start + maxCh ∧
        matchAt text blankPat q = true) →
      splitEnd text maxCh start = start + maxCh)
    ∧ (((∃ p, start < p ∧ p + markerPat.length ≤ start + maxCh ∧
          matchAt text markerPat p = true)
        ∨ (∃ q, start < q ∧ q + blankPat.length ≤ start + maxCh ∧
          matchAt text blankPat q = true)) →
      ∀ a b, markerLineSpan text a b →
        ¬ (a < splitEnd text maxCh start ∧ splitEnd text maxCh start < b)) := by
  refine ⟨fun hex => splitEnd_marker text maxCh start hw hex,
    ?_, ?_, ?_⟩
  · intro hno hex
    exact splitEnd_blank text maxCh start hw
      (fun p h1 h2 h3 => hno ⟨p, h1, h2, h3⟩) hex
  · intro hnoM hnoB
    exact splitEnd_hard text maxCh start hw
      (fun p h1 h2 h3 => hnoM ⟨p, h1, h2, h3⟩)
      (fun q h1 h2 h3 => hnoB ⟨q, h1, h2, h3⟩)
  · intro hex a b hspan ⟨hae, heb⟩
    have hnl : text[splitEnd text maxCh start]? = some '\n' := by
      rcases hex with hex | hex
      · by_cases hM : ∃ p, start < p ∧ p + markerPat.length ≤ start + maxCh ∧
            matchAt text markerPat p = true
        · exact matchAt_head (show markerPat = '\n' :: "===== FILE:".toList from rfl)
            (splitEnd_marker text maxCh start hw hM).2.1
        · exact absurd hex hM
      · by_cases hM : ∃ p, start < p ∧ p + markerPat.length ≤ start + maxCh ∧
            matchAt text markerPat p = true
        · exact matchAt_head (show markerPat = '\n' :: "===== FILE:".toList from rfl)
            (splitEnd_marker text maxCh start hw hM).2.1
        · exact matchAt_head (show blankPat = '\n' :: ['\n'] from rfl)
            (splitEnd_blank text maxCh start hw
              (fun p h1 h2 h3 => hM ⟨p, h1, h2, h3⟩) hex).2.1
    exact span_not_divided hnl hspan hae heb

/-- Witness for C8 at a concrete input (the window holds a blank line and
no marker, so the split lands on the most recent blank-line position). -/
theorem C8_witness :
    ((∃ p, 0 < p ∧ p + markerPat.length ≤ 0 + 7 ∧
        matchAt ("ab\n\ncd\n\nef".toList) markerPat p = true) →
      0 < splitEnd ("ab\n\ncd\n\nef".toList) 7 0
      ∧ matchAt ("ab\n\ncd\n\nef".toList) markerPat
          (splitEnd ("ab\n\ncd\n\nef".toList) 7 0) = true
      ∧ ∀ p, 0 < p → p + markerPat.length ≤ 0 + 7 →
          matchAt ("ab\n\ncd\n\nef".toList) markerPat p = true →
          p ≤ splitEnd ("ab\n\ncd\n\nef".toList) 7 0)
    ∧ ((¬ ∃ p, 0 < p ∧ p + markerPat.length ≤ 0 + 7 ∧
        matchAt ("ab\n\ncd\n\nef".toList) markerPat p = true) →
      (∃ q, 0 < q ∧ q + blankPat.length ≤ 0 + 7 ∧
        matchAt ("ab\n\ncd\n\nef".toList) blankPat q = true) →
      0 < splitEnd ("ab\n\ncd\n\nef".toList) 7 0
      ∧ matchAt ("ab\n\ncd\n\nef".toList) blankPat
          (splitEnd ("ab\n\ncd\n\nef".toList) 7 0) = true
      ∧ ∀ q, 0 < q → q + blankPat.length ≤ 0 + 7 →
          matchAt ("ab\n\ncd\n\nef".toList) blankPat q = true →
          q ≤ splitEnd ("ab\n\ncd\n\nef".toList) 7 0)
    ∧ ((¬ ∃ p, 0 < p ∧ p + markerPat.length ≤ 0 + 7 ∧
        matchAt ("ab\n\ncd\n\nef".toList) markerPat p = true) →
      (¬ ∃ q, 0 < q ∧ q + blankPat.length ≤ 0 + 7 ∧
        matchAt ("ab\n\ncd\n\nef".toList) blankPat q = true) →
      splitEnd ("ab\n\ncd\n\nef".toList) 7 0 = 0 + 7)
    ∧ (((∃ p, 0 < p ∧ p + markerPat.length ≤ 0 + 7 ∧
          matchAt ("ab\n\ncd\n\nef".toList) markerPat p = true)
        ∨ (∃ q, 0 < q ∧ q + blankPat.length ≤ 0 + 7 ∧
          matchAt ("ab\n\ncd\n\nef".toList) blankPat q = true)) →
      ∀ a b, markerLineSpan ("ab\n\ncd\n\nef".toList) a b →
        ¬ (a < splitEnd ("ab\n\ncd\n\nef".toList) 7 0
          ∧ splitEnd ("ab\n\ncd\n\nef".toList) 7 0 < b)) :=
  C8_split_point_priority ("ab\n\ncd\n\nef".toList) 7 0 (by decide) (by decide)

/-! ## C5: character-set lemmas for the normalizer pipeline -/

theorem mem_pyStrip {c : Char} {l : List Char} (h : c ∈ pyStrip l) : c ∈ l := by
  unfold pyStrip at h
  exact (List.rdropWhile_prefix pyWs l).sublist.mem
    (((l.rdropWhile pyWs).dropWhile_sublist pyWs).mem h)

theorem mem_rstripLine {c : Char} {l : List Char} (h : c ∈ rstripLine l) :
    c ∈ l :=
  (List.rdropWhile_prefix pyWs l).sublist.mem h

theorem mem_splitNl {c : Char} {l' : List Char} {l : List Char}
    (hl' : l' ∈ splitNl l) (hc : c ∈ l') : c ∈ l := by
  induction l generalizing l' with
  | nil =>
    simp [splitNl] at hl'
    subst hl'
    simp at hc
  | cons d r ih =>
    rw [splitNl] at hl'
    by_cases hd : d = '\n'
    · rw [if_pos hd] at hl'
      rcases List.mem_cons.mp hl' with rfl | hl'
      · simp at hc
      · exact List.mem_cons_of_mem d (ih hl' hc)
    · rw [if_neg hd] at hl'
      cases hsr : splitNl r with
      | nil => exact absurd hsr (splitNl_ne_nil r)
      | cons l0 ls0 =>
        rw [hsr] at hl'
        rcases List.mem_cons.mp hl' with rfl | hl'
        · rcases List.mem_cons.mp hc with rfl | hc
          · exact List.mem_cons_self c r
          · exact List.mem_cons_of_mem d (ih (hsr ▸ List.mem_cons_self l0 ls0) hc)
        · exact List.mem_cons_of_mem d (ih (hsr ▸ List.mem_cons_of_mem l0 hl') hc)

theorem splitNl_mem_no_nl {l' : List Char} {l : List Char}
    (hl' : l' ∈ splitNl l) : '\n' ∉ l' := by
  induction l generalizing l' with
  | nil =>
    simp [splitNl] at hl'
    subst hl'
    simp
  | cons d r ih =>
    rw [splitNl] at hl'
    by_cases hd : d = '\n'
    · rw [if_pos hd] at hl'
      rcases List.mem_cons.mp hl' with rfl | hl'
      · simp
      · exact ih hl'
    · rw [if_neg hd] at hl'
      cases hsr : splitNl r with
      | nil => exact absurd hsr (splitNl_ne_nil r)
      | cons l0 ls0 =>
        rw [hsr] at hl'
        rcases List.mem_cons.mp hl' with rfl | hl'
        · intro hmem
          rcases List.mem_cons.mp hmem with h | h
          · exact hd h.symm
          · exact ih (hsr ▸ List.mem_cons_self l0 ls0) h
        · exact ih (hsr ▸ List.mem_cons_of_mem l0 hl')

theorem mem_collapseGo {l' : List Char} {limit : Int} :
    ∀ {run : Nat} {ls : List (List Char)}, l' ∈ collapseGo limit run ls →
      l' ∈ ls ∨ l' = [] := by
  intro run ls
  induction ls generalizing run with
  | nil => simp [collapseGo]
  | cons l ls ih =>
    intro h
    rw [collapseGo] at h
    by_cases hl : l = []
    · rw [if_pos hl] at h
      by_cases hle : ((run : Int) + 1) ≤ limit
      · rw [if_pos hle] at h
        rcases List.mem_cons.mp h with rfl | h
        · exact Or.inr rfl
        · rcases ih h with h | h
          · exact Or.inl (List.mem_cons_of_mem l h)
          · exact Or.inr h
      · rw [if_neg hle] at h
        rcases ih h with h | h
        · exact Or.inl (List.mem_cons_of_mem l h)
        · exact Or.inr h
    · rw [if_neg hl] at h
      rcases List.mem_cons.mp h with rfl | h
      · exact Or.inl (List.mem_cons_self l' ls)
      · rcases ih h with h | h
        · exact Or.inl (List.mem_cons_of_mem l h)
        · exact Or.inr h

theorem replCrlf_cr_cons_ne {d : Char} (hd : d ≠ '\n') (r : List Char) :
    replCrlf ('\r' :: d :: r) = '\r' :: replCrlf (d :: r) := by
  conv_lhs => rw [replCrlf.eq_def]
  split
  · rename_i heq
    obtain ⟨h1, h2⟩ := List.cons.inj heq
    obtain ⟨h3, h4⟩ := List.cons.inj h2
    exact absurd h3 hd
  · rename_i c2 r2 heq
    obtain ⟨rfl, rfl⟩ := List.cons.inj heq
    rfl
  · rename_i heq
    exact absurd heq (by simp)

theorem mem_replCrlf {c : Char} {l : List Char} (h : c ∈ replCrlf l) : c ∈ l := by
  induction l with
  | nil => simpa [show replCrlf [] = [] from rfl] using h
  | cons d rest ih =>
    by_cases hd : d = '\r'
    · subst hd
      cases rest with
      | nil => simpa [show replCrlf ['\r'] = ['\r'] from rfl] using h
      | cons d2 r2 =>
        by_cases hd2 : d2 = '\n'
        · subst hd2
          rw [show replCrlf ('\r' :: '\n' :: r2) = '\n' :: replCrlf r2 from rfl] at h
          rcases List.mem_cons.mp h with rfl | h
          · exact List.mem_cons_of_mem _ (List.mem_cons_self _ _)
          · have h2 : c ∈ replCrlf ('\n' :: r2) := by
              rw [replCrlf_cons_ne (by decide) r2]
              exact List.mem_cons_of_mem _ h
            exact List.mem_cons_of_mem _ (ih h2)
        · rw [replCrlf_cr_cons_ne hd2 r2] at h
          rcases List.mem_cons.mp h with rfl | h
          · exact List.mem_cons_self _ _
          · exact List.mem_cons_of_mem _ (ih h)
    · rw [replCrlf_cons_ne hd] at h
      rcases List.mem_cons.mp h with rfl | h
      · exact List.mem_cons_self c rest
      · exact List.mem_cons_of_mem d (ih h)

theorem mem_replCr {c : Char} {l : List Char} (h : c ∈ replCr l) :
    c ∈ l ∨ c = '\n' := by
  unfold replCr at h
  obtain ⟨d, hd, hdc⟩ := List.mem_map.mp h
  by_cases hdr : d = '\r'
  · right
    rw [← hdc, if_pos hdr]
  · left
    rw [← hdc, if_neg hdr]
    exact hd

theorem cr_not_mem_replCr (l : List Char) : '\r' ∉ replCr l := by
  intro h
  unfold replCr at h
  obtain ⟨d, hd, hdc⟩ := List.mem_map.mp h
  by_cases hdr : d = '\r'
  · rw [if_pos hdr] at hdc
    exact absurd hdc (by decide)
  · rw [if_neg hdr] at hdc
    exact hdr hdc

theorem mem_expandTabs {c : Char} {tab : Int} :
    ∀ {col : Nat} {l : List Char}, c ∈ expandTabsGo tab col l →
      c ∈ l ∨ c = ' ' := by
  intro col l
  induction l generalizing col with
  | nil =>
    intro h
    simp [expandTabsGo] at h
  | cons d r ih =>
    intro h
    rw [expandTabsGo] at h
    by_cases hd : d = '\t'
    · rw [if_pos hd] at h
      by_cases htab : 0 < tab
      · rw [if_pos htab] at h
        rcases List.mem_append.mp h with h | h
        · exact Or.inr (List.eq_of_mem_replicate h)
        · rcases ih h with h | h
          · exact Or.inl (List.mem_cons_of_mem d h)
          · exact Or.inr h
      · rw [if_neg htab] at h
        rcases ih h with h | h
        · exact Or.inl (List.mem_cons_of_mem d h)
        · exact Or.inr h
    · rw [if_neg hd] at h
      by_cases hnl : d = '\n' ∨ d = '\r'
      · rw [if_pos hnl] at h
        rcases List.mem_cons.mp h with rfl | h
        · exact Or.inl (List.mem_cons_self c r)
        · rcases ih h with h | h
          · exact Or.inl (List.mem_cons_of_mem d h)
          · exact Or.inr h
      · rw [if_neg hnl] at h
        rcases List.mem_cons.mp h with rfl | h
        · exact Or.inl (List.mem_cons_self c r)
        · rcases ih h with h | h
          · exact Or.inl (List.mem_cons_of_mem d h)
          · exact Or.inr h

theorem tab_not_mem_expandTabs {tab : Int} :
    ∀ {col : Nat} {l : List Char}, '\t' ∉ expandTabsGo tab col l := by
  intro col l
  induction l generalizing col with
  | nil => simp [expandTabsGo]
  | cons d r ih =>
    intro h
    rw [expandTabsGo] at h
    by_cases hd : d = '\t'
    · rw [if_pos hd] at h
      by_cases htab : 0 < tab
      · rw [if_pos htab] at h
        rcases List.mem_append.mp h with h | h
        · exact absurd (List.eq_of_mem_replicate h) (by decide)
        · exact ih h
      · rw [if_neg htab] at h
        exact ih h
    · rw [if_neg hd] at h
      by_cases hnl : d = '\n' ∨ d = '\r'
      · rw [if_pos hnl] at h
        rcases List.mem_cons.mp h with heq | h
        · exact hd heq.symm
        · exact ih h
      · rw [if_neg hnl] at h
        rcases List.mem_cons.mp h with heq | h
        · exact hd heq.symm
        · exact ih h

theorem expandTabs_no_tab {tab : Int} :
    ∀ {l : List Char}, '\t' ∉ l → ∀ col, expandTabsGo tab col l = l := by
  intro l
  induction l with
  | nil => intro _ _; rfl
  | cons d r ih =>
    intro h col
    have hd : d ≠ '\t' := fun hx => h (hx ▸ List.mem_cons_self d r)
    have hr : '\t' ∉ r := fun hx => h (List.mem_cons_of_mem d hx)
    rw [expandTabsGo, if_neg hd]
    by_cases hnl : d = '\n' ∨ d = '\r'
    · rw [if_pos hnl, ih hr 0]
    · rw [if_neg hnl, ih hr (col + 1)]

/-! ## The blank-run invariant of collapsed line lists -/

/-- `runsOK limit run ls`: scanning `ls` with `run` blank lines immediately
before it, every blank line is within the collapse limit — exactly the
condition under which `collapseGo` keeps the list unchanged. -/
def runsOK (limit : Int) : Nat → List (List Char) → Prop
  | _, [] => True
  | run, ln :: rest =>
    if ln = [] then (((run : Int) + 1) ≤ limit) ∧ runsOK limit (run + 1) rest
    else runsOK limit 0 rest

theorem collapseGo_of_runsOK {limit : Int} :
    ∀ {run : Nat} {ls : List (List Char)}, runsOK limit run ls →
      collapseGo limit run ls = ls := by
  intro run ls
  induction ls generalizing run with
  | nil => intro _; rfl
  | cons l ls ih =>
    intro h
    rw [runsOK] at h
    rw [collapseGo]
    by_cases hl : l = []
    · rw [if_pos hl] at h ⊢
      rw [if_pos h.1, ih h.2, hl]
    · rw [if_neg hl] at h ⊢
      rw [ih h]

theorem runsOK_mono {limit : Int} :
    ∀ {ls : List (List Char)} {r r' : Nat}, runsOK limit r' ls → r ≤ r' →
      runsOK limit r ls := by
  intro ls
  induction ls with
  | nil => intro r r' _ _; trivial
  | cons l ls ih =>
    intro r r' h hle
    rw [runsOK] at h ⊢
    by_cases hl : l = []
    · rw [if_pos hl] at h ⊢
      refine ⟨by omega, ih h.2 (by omega)⟩
    · rw [if_neg hl] at h ⊢
      exact h

theorem runsOK_collapseGo {limit : Int} :
    ∀ {ls : List (List Char)} {run : Nat},
      runsOK limit run (collapseGo limit run ls) := by
  intro ls
  induction ls with
  | nil => intro run; trivial
  | cons l ls ih =>
    intro run
    rw [collapseGo]
    by_cases hl : l = []
    · by_cases hle : (((run : Int) + 1) ≤ limit)
      · rw [if_pos hl, if_pos hle, runsOK, if_pos rfl]
        exact ⟨hle, ih⟩
      · rw [if_pos hl, if_neg hle]
        exact runsOK_mono ih (by omega)
    · rw [if_neg hl, runsOK, if_neg hl]
      exact ih

theorem runsOK_append {limit : Int} :
    ∀ {xs : List (List Char)} {run : Nat} {ys : List (List Char)},
      runsOK limit run (xs ++ ys) → runsOK limit run xs := by
  intro xs
  induction xs with
  | nil => intro _ _ _; trivial
  | cons x xs ih =>
    intro run ys h
    rw [List.cons_append, runsOK] at h
    rw [runsOK]
    by_cases hx : x = []
    · rw [if_pos hx] at h ⊢
      exact ⟨h.1, ih h.2⟩
    · rw [if_neg hx] at h ⊢
      exact ih h

theorem runsOK_dropWhile {limit : Int} :
    ∀ {ls : List (List Char)}, runsOK limit 0 ls →
      runsOK limit 0 (ls.dropWhile fun l => l.isEmpty) := by
  intro ls
  induction ls with
  | nil => intro _; trivial
  | cons l ls ih =>
    intro h
    rw [runsOK] at h
    rw [List.dropWhile_cons]
    by_cases hl : l = []
    · rw [if_pos hl] at h
      rw [if_pos (by rw [hl]; rfl)]
      exact ih (runsOK_mono h.2 (by omega))
    · rw [if_neg hl] at h
      rw [if_neg (by simp [List.isEmpty_iff, hl])]
      rw [runsOK, if_neg hl]
      exact h

theorem runsOK_nonpos {limit : Int} (hlim : ¬ ((1 : Int) ≤ limit)) :
    ∀ {ls : List (List Char)} {run : Nat}, runsOK limit run ls →
      ∀ l ∈ ls, l ≠ [] := by
  intro ls
  induction ls with
  | nil => intro _ _ l hl; simp at hl
  | cons x xs ih =>
    intro run h l hl
    rw [runsOK] at h
    by_cases hx : x = []
    · rw [if_pos hx] at h
      exact absurd h.1 (by omega)
    · rw [if_neg hx] at h
      rcases List.mem_cons.mp hl with rfl | hl
      · exact hx
      · exact ih h l hl

theorem collapseGo_append_blank {limit : Int} (hlim : (1 : Int) ≤ limit) :
    ∀ {ls : List (List Char)} {run : Nat}, runsOK limit run ls →
      ls.getLast? ≠ some [] → ls ≠ [] →
      collapseGo limit run (ls ++ [[]]) = ls ++ [[]] := by
  intro ls
  induction ls with
  | nil => intro _ _ _ hne; exact absurd rfl hne
  | cons l ls ih =>
    intro run h hlast _
    rw [runsOK] at h
    cases ls with
    | nil =>
      have hl : l ≠ [] := by
        intro hx
        apply hlast
        rw [hx]
        rfl
      rw [show (([l] : List (List Char)) ++ [[]]) = [l, []] from rfl, collapseGo,
        if_neg hl, collapseGo, if_pos rfl, if_pos (by omega), collapseGo]
    | cons m ms =>
      have hlast2 : (m :: ms).getLast? ≠ some [] := by
        rw [← getLast?_cons_of_ne_nil (l := m :: ms) (by simp)]
        exact hlast
      rw [List.cons_append, collapseGo]
      by_cases hl : l = []
      · rw [if_pos hl] at h ⊢
        rw [if_pos h.1, ih h.2 hlast2 (by simp), hl]
      · rw [if_neg hl] at h ⊢
        rw [ih h hlast2 (by simp)]

theorem collapseGo_append_blank_drop {limit : Int} (hlim : ¬ ((1 : Int) ≤ limit)) :
    ∀ {ls : List (List Char)}, (∀ l ∈ ls, l ≠ []) →
      collapseGo limit 0 (ls ++ [[]]) = ls := by
  intro ls
  induction ls with
  | nil =>
    intro _
    rw [List.nil_append, collapseGo, if_pos rfl, if_neg (by omega), collapseGo]
  | cons l ls ih =>
    intro h
    have hl : l ≠ [] := h l (List.mem_cons_self l ls)
    rw [List.cons_append, collapseGo, if_neg hl,
      ih fun x hx => h x (List.mem_cons_of_mem l hx)]

theorem joinNl_concat_blank :
    ∀ {ls : List (List Char)}, ls ≠ [] →
      joinNl (ls ++ [[]]) = joinNl ls ++ ['\n'] := by
  intro ls
  induction ls with
  | nil => intro h; exact absurd rfl h
  | cons l ls ih =>
    intro _
    cases ls with
    | nil => rfl
    | cons m ms =>
      rw [show ((l :: m :: ms) ++ [[]]) = l :: ((m :: ms) ++ [[]]) from rfl]
      rw [show ((m :: ms) ++ [[]]) = m :: (ms ++ [[]]) from rfl]
      rw [show joinNl (l :: m :: (ms ++ [[]])) = l ++ '\n' :: joinNl (m :: (ms ++ [[]])) from rfl]
      rw [show (m :: (ms ++ [[]])) = ((m :: ms) ++ [[]]) from rfl]
      rw [ih (by simp)]
      rw [show joinNl (l :: m :: ms) = l ++ '\n' :: joinNl (m :: ms) from rfl]
      simp

theorem joinNl_append_singleton (ls : List (List Char)) (x : List Char) :
    joinNl (ls ++ [x]) = if ls = [] then x else joinNl ls ++ '\n' :: x := by
  induction ls with
  | nil => simp [joinNl]
  | cons l ls ih =>
    rw [if_neg (by simp)]
    cases ls with
    | nil => rfl
    | cons m ms =>
      rw [show ((l :: m :: ms) ++ [x]) = l :: ((m :: ms) ++ [x]) from rfl]
      rw [show ((m :: ms) ++ [x]) = m :: (ms ++ [x]) from rfl]
      rw [show joinNl (l :: m :: (ms ++ [x])) = l ++ '\n' :: joinNl (m :: (ms ++ [x])) from rfl]
      rw [show (m :: (ms ++ [x])) = ((m :: ms) ++ [x]) from rfl]
      rw [ih, if_neg (by simp)]
      rw [show joinNl (l :: m :: ms) = l ++ '\n' :: joinNl (m :: ms) from rfl]
      simp

theorem splitNl_concat_nl :
    ∀ (l : List Char), splitNl (l ++ ['\n']) = splitNl l ++ [[]] := by
  intro l
  induction l with
  | nil => rfl
  | cons c r ih =>
    by_cases hc : c = '\n'
    · rw [List.cons_append, splitNl, if_pos hc, ih, splitNl, if_pos hc]
      rfl
    · rw [List.cons_append, splitNl, if_neg hc, ih, splitNl, if_neg hc]
      cases hsr : splitNl r with
      | nil => exact absurd hsr (splitNl_ne_nil r)
      | cons l0 ls0 => rfl

theorem rdrop_eq_self_of_getLast? {p : Char → Bool} {l : List Char} {c : Char}
    (h : l.getLast? = some c) (hc : p c = false) : l.rdropWhile p = l := by
  rw [List.rdropWhile_eq_self_iff]
  intro hl
  have h2 : l.getLast? = some (l.getLast hl) :=
    List.getLast?_eq_getLast_of_ne_nil hl
  rw [h] at h2
  have h3 : c = l.getLast hl := by injection h2
  rw [← h3, hc]
  simp

theorem dropWhile_append_of_ne_nil {p : Char → Bool} :
    ∀ {z : List Char}, z.dropWhile p ≠ [] → ∀ (x : List Char),
      (z ++ x).dropWhile p = z.dropWhile p ++ x := by
  intro z
  induction z with
  | nil => intro h; simp at h
  | cons c z ih =>
    intro h x
    by_cases hc : p c
    · rw [List.dropWhile_cons, if_pos hc] at h
      rw [List.cons_append, List.dropWhile_cons, if_pos hc,
        List.dropWhile_cons, if_pos hc]
      exact ih h x
    · rw [List.cons_append, List.dropWhile_cons, if_neg hc,
        List.dropWhile_cons, if_neg hc]
      rfl

/-- Strip leading whitespace from the first line of a line list. -/
def lstripFirst : List (List Char) → List (List Char)
  | [] => []
  | l :: ls => l.dropWhile pyWs :: ls

theorem dropWhile_head_not {α : Type} {p : α → Bool} :
    ∀ {z : List α} {c : α} {cs : List α},
      z.dropWhile p = c :: cs → p c = false := by
  intro z
  induction z with
  | nil => intro c cs h; simp at h
  | cons d z ih =>
    intro c cs h
    rw [List.dropWhile_cons] at h
    by_cases hd : p d
    · rw [if_pos hd] at h
      exact ih h
    · rw [if_neg hd] at h
      obtain ⟨rfl, _⟩ := List.cons.inj h
      exact Bool.not_eq_true _ ▸ (by simpa using hd)

theorem dropWhile_ne_nil_of_rfixed {z : List Char}
    (hz : rstripLine z = z) (hne : z ≠ []) : z.dropWhile pyWs ≠ [] := by
  intro h
  have hall := List.dropWhile_eq_nil_iff.mp h
  have hlast : ¬ pyWs (z.getLast hne) = true :=
    List.rdropWhile_eq_self_iff.mp hz hne
  exact hlast (hall _ (List.getLast_mem hne))

theorem joinNl_getLast? :
    ∀ {ls : List (List Char)} {z : List Char}, ls.getLast? = some z → z ≠ [] →
      (joinNl ls).getLast? = z.getLast? := by
  intro ls
  induction ls with
  | nil => intro z h _; simp at h
  | cons l ls ih =>
    intro z h hz
    cases ls with
    | nil =>
      simp at h
      subst h
      rfl
    | cons m ms =>
      rw [getLast?_cons_of_ne_nil (by simp)] at h
      have hih := ih h hz
      obtain ⟨c, hc⟩ : ∃ c, z.getLast? = some c := by
        cases hzl : z.getLast? with
        | none => exact absurd (List.getLast?_eq_none_iff.mp hzl) hz
        | some c => exact ⟨c, rfl⟩
      have hJne : joinNl (m :: ms) ≠ [] := by
        intro hx
        rw [hx] at hih
        rw [hc] at hih
        simp at hih
      rw [show joinNl (l :: m :: ms) = l ++ '\n' :: joinNl (m :: ms) from rfl,
        List.getLast?_append_of_ne_nil l (by simp),
        getLast?_cons_of_ne_nil hJne]
      exact hih

theorem rdrop_joinNl :
    ∀ {ls : List (List Char)}, (∀ l ∈ ls, rstripLine l = l) →
      (joinNl ls).rdropWhile pyWs
        = joinNl (ls.rdropWhile fun l => l.isEmpty) := by
  intro ls
  induction ls using List.reverseRecOn with
  | nil =>
    intro _
    simp [joinNl]
  | append_singleton ys y ih =>
    intro hfix
    by_cases hy : y = []
    · subst hy
      rw [joinNl_append_singleton,
        List.rdropWhile_concat_pos _ ys [] (by rfl)]
      by_cases hys : ys = []
      · subst hys
        simp [joinNl]
      · rw [if_neg hys]
        have h1 : joinNl ys ++ '\n' :: ([] : List Char) = joinNl ys ++ ['\n'] := rfl
        rw [h1, List.rdropWhile_concat_pos pyWs (joinNl ys) '\n' (by decide)]
        exact ih fun l hl => hfix l (List.mem_append_left _ hl)
    · have hyfix : rstripLine y = y := hfix y (List.mem_append_right ys (by simp))
      have hisE : (fun l => List.isEmpty l) y = false := by
        simp [List.isEmpty_iff, hy]
      rw [joinNl_append_singleton, List.rdropWhile_concat_neg _ ys y (by simp [hisE]),
        joinNl_append_singleton]
      by_cases hys : ys = []
      · rw [if_pos hys]
        exact hyfix
      · rw [if_neg hys]
        obtain ⟨c, hc⟩ : ∃ c, y.getLast? = some c := by
          cases hzl : y.getLast? with
          | none => exact absurd (List.getLast?_eq_none_iff.mp hzl) hy
          | some c => exact ⟨c, rfl⟩
        have hcws : pyWs c = false := by
          have hlast : ¬ pyWs (y.getLast hy) = true :=
            List.rdropWhile_eq_self_iff.mp hyfix hy
          have h2 : y.getLast? = some (y.getLast hy) :=
            List.getLast?_eq_getLast_of_ne_nil hy
          rw [hc] at h2
          have : c = y.getLast hy := by injection h2
          rw [this]
          simpa using hlast
        refine rdrop_eq_self_of_getLast? ?_ hcws
        rw [List.getLast?_append_of_ne_nil (joinNl ys) (by simp),
          getLast?_cons_of_ne_nil hy]
        exact hc

theorem drop_joinNl :
    ∀ {ls : List (List Char)}, (∀ l ∈ ls, rstripLine l = l) →
      (joinNl ls).dropWhile pyWs
        = joinNl (lstripFirst (ls.dropWhile fun l => l.isEmpty)) := by
  intro ls
  induction ls with
  | nil =>
    intro _
    simp [joinNl, lstripFirst]
  | cons l ls ih =>
    intro hfix
    by_cases hl : l = []
    · subst hl
      cases ls with
      | nil => simp [joinNl, lstripFirst]
      | cons m ms =>
        rw [show joinNl ([] :: m :: ms) = '\n' :: joinNl (m :: ms) from rfl,
          List.dropWhile_cons, if_pos (by decide),
          List.dropWhile_cons, if_pos (by rfl)]
        exact ih fun x hx => hfix x (List.mem_cons_of_mem _ hx)
    · have hlfix : rstripLine l = l := hfix l (List.mem_cons_self l ls)
      have hdl : l.dropWhile pyWs ≠ [] := dropWhile_ne_nil_of_rfixed hlfix hl
      rw [List.dropWhile_cons, if_neg (by simp [List.isEmpty_iff, hl])]
      cases ls with
      | nil =>
        rw [show joinNl [l] = l from rfl, lstripFirst]
        rfl
      | cons m ms =>
        rw [show joinNl (l :: m :: ms) = l ++ '\n' :: joinNl (m :: ms) from rfl,
          dropWhile_append_of_ne_nil hdl, lstripFirst]
        rfl

theorem map_rstrip_fixed {ls : List (List Char)}
    (h : ∀ l ∈ ls, rstripLine l = l) : ls.map rstripLine = ls := by
  induction ls with
  | nil => rfl
  | cons l ls ih =>
    rw [List.map_cons, h l (List.mem_cons_self l ls),
      ih fun x hx => h x (List.mem_cons_of_mem l hx)]

theorem joinNl_splitNl : ∀ (l : List Char), joinNl (splitNl l) = l := by
  intro l
  induction l with
  | nil => rfl
  | cons c r ih =>
    rw [splitNl]
    by_cases hc : c = '\n'
    · rw [if_pos hc]
      cases hsr : splitNl r with
      | nil => exact absurd hsr (splitNl_ne_nil r)
      | cons l0 ls0 =>
        rw [show joinNl ([] :: l0 :: ls0) = [] ++ '\n' :: joinNl (l0 :: ls0) from rfl]
        rw [← hsr, ih, hc]
        rfl
    · rw [if_neg hc]
      cases hsr : splitNl r with
      | nil => exact absurd hsr (splitNl_ne_nil r)
      | cons l0 ls0 =>
        cases ls0 with
        | nil =>
          rw [show joinNl [c :: l0] = c :: l0 from rfl]
          have : joinNl [l0] = r := by rw [← hsr, ih]
          rw [show joinNl [l0] = l0 from rfl] at this
          rw [this]
        | cons m ms =>
          rw [show joinNl ((c :: l0) :: m :: ms)
            = (c :: l0) ++ '\n' :: joinNl (m :: ms) from rfl]
          have : joinNl (l0 :: m :: ms) = r := by rw [← hsr, ih]
          rw [show joinNl (l0 :: m :: ms) = l0 ++ '\n' :: joinNl (m :: ms) from rfl] at this
          rw [List.cons_append, this]

theorem normalise_eq (text : List Char) (tab limit : Int) :
    normalise_whitespace text tab limit
      = (if pyStrip (joinNl (collapseGo limit 0
          ((splitNl (expandTabsGo tab 0 (replCr (replCrlf
            (text.filter fun c => ¬ (c = '\uFEFF')))))).map rstripLine))) = []
        then []
        else pyStrip (joinNl (collapseGo limit 0
          ((splitNl (expandTabsGo tab 0 (replCr (replCrlf
            (text.filter fun c => ¬ (c = '\uFEFF')))))).map rstripLine))) ++ ['\n']) :=
  rfl

theorem normalise_nil (tab limit : Int) : normalise_whitespace [] tab limit = [] := by
  rw [normalise_eq]
  have h0 : (([] : List Char).filter fun c => ¬ (c = '\uFEFF')) = [] := rfl
  rw [h0]
  have h1 : replCr (replCrlf []) = [] := rfl
  rw [h1]
  have h2 : expandTabsGo tab 0 [] = [] := rfl
  rw [h2]
  have h3 : (splitNl []).map rstripLine = [[]] := rfl
  rw [h3]
  by_cases hle : ((1 : Int) ≤ limit)
  · have h4 : collapseGo limit 0 [[]] = [[]] := by
      rw [collapseGo, if_pos rfl, if_pos (by omega), collapseGo]
    rw [h4]
    rfl
  · have h4 : collapseGo limit 0 [[]] = [] := by
      rw [collapseGo, if_pos rfl, if_neg (by omega), collapseGo]
    rw [h4]
    rfl

theorem joinNl_ne_nil_of_head {ls : List (List Char)} (hne : ls ≠ [])
    (hh : ls.headI ≠ []) : joinNl ls ≠ [] := by
  cases ls with
  | nil => exact absurd rfl hne
  | cons l ls =>
    cases l with
    | nil => exact absurd rfl hh
    | cons c cs =>
      cases ls with
      | nil => simp [joinNl]
      | cons m ms =>
        rw [show joinNl ((c :: cs) :: m :: ms)
          = (c :: cs) ++ '\n' :: joinNl (m :: ms) from rfl]
        simp

theorem dropWhile_joinNl_self {ls : List (List Char)} (hh : ls.headI ≠ [])
    (hws : ∀ c cs, ls.headI = c :: cs → pyWs c = false) :
    (joinNl ls).dropWhile pyWs = joinNl ls := by
  cases ls with
  | nil => rfl
  | cons l ls =>
    cases l with
    | nil => exact absurd rfl hh
    | cons c cs =>
      have hc : pyWs c = false := hws c cs rfl
      cases ls with
      | nil =>
        rw [show joinNl [c :: cs] = c :: cs from rfl, List.dropWhile_cons]
        simp [hc]
      | cons m ms =>
        rw [show joinNl ((c :: cs) :: m :: ms)
          = (c :: cs) ++ '\n' :: joinNl (m :: ms) from rfl,
          List.cons_append, List.dropWhile_cons]
        simp [hc]

theorem rdropWhile_joinNl_self {ls : List (List Char)} (hne : ls ≠ [])
    (hlast : ls.getLast? ≠ some [])
    (hrfix : ∀ l ∈ ls, rstripLine l = l) :
    (joinNl ls).rdropWhile pyWs = joinNl ls := by
  obtain ⟨z, hz⟩ : ∃ z, ls.getLast? = some z := by
    cases hzl : ls.getLast? with
    | none => exact absurd (List.getLast?_eq_none_iff.mp hzl) hne
    | some z => exact ⟨z, rfl⟩
  have hzne : z ≠ [] := by
    intro hx
    rw [hx] at hz
    exact hlast hz
  have hzfix : rstripLine z = z := hrfix z (getLast?_mem_self hz)
  obtain ⟨c, hc⟩ : ∃ c, z.getLast? = some c := by
    cases hzl : z.getLast? with
    | none => exact absurd (List.getLast?_eq_none_iff.mp hzl) hzne
    | some c => exact ⟨c, rfl⟩
  have hcws : pyWs c = false := by
    have hlastz : ¬ pyWs (z.getLast hzne) = true :=
      List.rdropWhile_eq_self_iff.mp hzfix hzne
    have h2 : z.getLast? = some (z.getLast hzne) :=
      List.getLast?_eq_getLast_of_ne_nil hzne
    rw [hc] at h2
    have h3 : c = z.getLast hzne := by injection h2
    rw [h3]
    simpa using hlastz
  refine rdrop_eq_self_of_getLast? ?_ hcws
  rw [joinNl_getLast? hz hzne]
  exact hc

/-- A line list in fully-normalized form is a fixed point of the whole
normalizer pipeline (with the final newline appended). -/
theorem normalise_fixed {ls : List (List Char)} {tab limit : Int}
    (hne : ls ≠ [])
    (hnl : ∀ l ∈ ls, '\n' ∉ l)
    (hcr : ∀ l ∈ ls, '\r' ∉ l)
    (htab : ∀ l ∈ ls, '\t' ∉ l)
    (hbom : ∀ l ∈ ls, '﻿' ∉ l)
    (hrfix : ∀ l ∈ ls, rstripLine l = l)
    (hh : ls.headI ≠ [])
    (hws : ∀ c cs, ls.headI = c :: cs → pyWs c = false)
    (hlast : ls.getLast? ≠ some [])
    (hruns : runsOK limit 0 ls) :
    normalise_whitespace (joinNl ls ++ ['\n']) tab limit = joinNl ls ++ ['\n'] := by
  have hmem : ∀ c ∈ joinNl ls ++ ['\n'], c = '\n' ∨ ∃ l ∈ ls, c ∈ l := by
    intro c hcm
    rcases List.mem_append.mp hcm with hcm | hcm
    · rcases mem_joinNl hcm with ⟨l, hl, hcl⟩ | h
      · exact Or.inr ⟨l, hl, hcl⟩
      · exact Or.inl h
    · simp at hcm
      exact Or.inl hcm
  have hscr : '\r' ∉ joinNl ls ++ ['\n'] := by
    intro h
    rcases hmem '\r' h with h | ⟨l, hl, hcl⟩
    · exact absurd h (by decide)
    · exact hcr l hl hcl
  have hstab : '\t' ∉ joinNl ls ++ ['\n'] := by
    intro h
    rcases hmem '\t' h with h | ⟨l, hl, hcl⟩
    · exact absurd h (by decide)
    · exact htab l hl hcl
  have hsbom : '﻿' ∉ joinNl ls ++ ['\n'] := by
    intro h
    rcases hmem '﻿' h with h | ⟨l, hl, hcl⟩
    · exact absurd h (by decide)
    · exact hbom l hl hcl
  have hJne : joinNl ls ≠ [] := joinNl_ne_nil_of_head hne hh
  have hrd : (joinNl ls).rdropWhile pyWs = joinNl ls :=
    rdropWhile_joinNl_self hne hlast hrfix
  have hdw : (joinNl ls).dropWhile pyWs = joinNl ls :=
    dropWhile_joinNl_self hh hws
  have hstrip2 : pyStrip (joinNl ls) = joinNl ls := by
    unfold pyStrip
    rw [hrd, hdw]
  have hstrip : pyStrip (joinNl ls ++ ['\n']) = joinNl ls := by
    unfold pyStrip
    rw [List.rdropWhile_concat_pos pyWs (joinNl ls) '\n' (by decide), hrd, hdw]
  rw [normalise_eq]
  have h1 : ((joinNl ls ++ ['\n']).filter fun c => ¬ (c = '﻿'))
      = joinNl ls ++ ['\n'] := by
    rw [List.filter_eq_self]
    intro a ha
    simp only [decide_eq_true_eq]
    intro hEq
    exact hsbom (hEq ▸ ha)
  rw [h1, replCrlf_no_cr hscr, replCr_no_cr hscr, expandTabs_no_tab hstab 0,
    splitNl_concat_nl, splitNl_joinNl hnl hne, List.map_append,
    map_rstrip_fixed hrfix,
    show ([[]] : List (List Char)).map rstripLine = [[]] from rfl]
  by_cases hle : ((1 : Int) ≤ limit)
  · rw [collapseGo_append_blank hle hruns hlast hne, joinNl_concat_blank hne,
      hstrip, if_neg hJne]
  · rw [collapseGo_append_blank_drop hle (runsOK_nonpos hle hruns), hstrip2,
      if_neg hJne]

/-- Structural facts about the line decomposition of a nonempty normalizer
output: every line is right-stripped, the first line starts with a
non-whitespace character, the last line is nonblank, and blank runs respect
the collapse limit. -/
theorem out_structure {limit : Int} {t3 : List Char}
    (hz : pyStrip (joinNl (collapseGo limit 0
      ((splitNl t3).map rstripLine))) ≠ []) :
    (∀ l ∈ splitNl (pyStrip (joinNl (collapseGo limit 0
        ((splitNl t3).map rstripLine)))), rstripLine l = l)
    ∧ (splitNl (pyStrip (joinNl (collapseGo limit 0
        ((splitNl t3).map rstripLine))))).headI ≠ []
    ∧ (∀ c cs, (splitNl (pyStrip (joinNl (collapseGo limit 0
        ((splitNl t3).map rstripLine))))).headI = c :: cs → pyWs c = false)
    ∧ (splitNl (pyStrip (joinNl (collapseGo limit 0
        ((splitNl t3).map rstripLine))))).getLast? ≠ some []
    ∧ runsOK limit 0 (splitNl (pyStrip (joinNl (collapseGo limit 0
        ((splitNl t3).map rstripLine))))) := by
  have hcfix : ∀ l ∈ collapseGo limit 0 ((splitNl t3).map rstripLine),
      rstripLine l = l ∧ '\n' ∉ l := by
    intro l hl
    rcases mem_collapseGo hl with hl | rfl
    · obtain ⟨l0, hl0, rfl⟩ := List.mem_map.mp hl
      refine ⟨List.rdropWhile_idempotent pyWs l0, ?_⟩
      intro h
      exact splitNl_mem_no_nl hl0 (mem_rstripLine h)
    · exact ⟨rfl, by simp⟩
  have hZsub : ∀ l ∈ (collapseGo limit 0 ((splitNl t3).map rstripLine)).rdropWhile
      (fun l => l.isEmpty), l ∈ collapseGo limit 0 ((splitNl t3).map rstripLine) :=
    fun l hl => (List.rdropWhile_prefix _ _).sublist.mem hl
  have hDsub : ∀ l ∈ ((collapseGo limit 0 ((splitNl t3).map rstripLine)).rdropWhile
      (fun l => l.isEmpty)).dropWhile (fun l => l.isEmpty),
      l ∈ collapseGo limit 0 ((splitNl t3).map rstripLine) :=
    fun l hl => hZsub l ((List.dropWhile_sublist _).mem hl)
  have hZfix : ∀ l ∈ (collapseGo limit 0 ((splitNl t3).map rstripLine)).rdropWhile
      (fun l => l.isEmpty), rstripLine l = l :=
    fun l hl => (hcfix l (hZsub l hl)).1
  have hout_eq : pyStrip (joinNl (collapseGo limit 0 ((splitNl t3).map rstripLine)))
      = joinNl (lstripFirst (((collapseGo limit 0
          ((splitNl t3).map rstripLine)).rdropWhile
            (fun l => l.isEmpty)).dropWhile (fun l => l.isEmpty))) := by
    unfold pyStrip
    rw [rdrop_joinNl fun l hl => (hcfix l hl).1, drop_joinNl hZfix]
  have hMne : lstripFirst (((collapseGo limit 0
      ((splitNl t3).map rstripLine)).rdropWhile
        (fun l => l.isEmpty)).dropWhile (fun l => l.isEmpty)) ≠ [] := by
    intro h
    apply hz
    rw [hout_eq, h]
    rfl
  obtain ⟨d, ds, hD⟩ : ∃ d ds, (((collapseGo limit 0
      ((splitNl t3).map rstripLine)).rdropWhile
        (fun l => l.isEmpty)).dropWhile (fun l => l.isEmpty)) = d :: ds := by
    cases hD : (((collapseGo limit 0 ((splitNl t3).map rstripLine)).rdropWhile
        (fun l => l.isEmpty)).dropWhile (fun l => l.isEmpty)) with
    | nil =>
      exfalso
      apply hMne
      rw [hD]
      rfl
    | cons d ds => exact ⟨d, ds, rfl⟩
  have hdE : (fun l => List.isEmpty l) d = false := dropWhile_head_not hD
  have hdne : d ≠ [] := by
    intro h
    rw [h] at hdE
    simp at hdE
  have hdmem : d ∈ collapseGo limit 0 ((splitNl t3).map rstripLine) :=
    hDsub d (hD ▸ List.mem_cons_self d ds)
  have hdfix : rstripLine d = d := (hcfix d hdmem).1
  have hlstrip_ne : d.dropWhile pyWs ≠ [] := dropWhile_ne_nil_of_rfixed hdfix hdne
  have hM : lstripFirst (((collapseGo limit 0
      ((splitNl t3).map rstripLine)).rdropWhile
        (fun l => l.isEmpty)).dropWhile (fun l => l.isEmpty))
      = (d.dropWhile pyWs) :: ds := by
    rw [hD]
    rfl
  have hMnl : ∀ l ∈ (d.dropWhile pyWs) :: ds, '\n' ∉ l := by
    intro l hl
    rcases List.mem_cons.mp hl with rfl | hl
    · intro h
      exact (hcfix d hdmem).2 ((d.dropWhile_sublist pyWs).mem h)
    · exact (hcfix l (hDsub l (hD ▸ List.mem_cons_of_mem d hl))).2
  have hsplit_out : splitNl (pyStrip (joinNl (collapseGo limit 0
      ((splitNl t3).map rstripLine)))) = (d.dropWhile pyWs) :: ds := by
    rw [hout_eq, hM, splitNl_joinNl hMnl (by simp)]
  rw [hsplit_out]
  refine ⟨?_, ?_, ?_, ?_, ?_⟩
  · intro l hl
    rcases List.mem_cons.mp hl with rfl | hl
    · exact rdrop_after_drop hdfix
    · exact (hcfix l (hDsub l (hD ▸ List.mem_cons_of_mem d hl))).1
  · exact hlstrip_ne
  · intro c cs hc
    exact dropWhile_head_not (hc ▸ rfl : d.dropWhile pyWs = c :: cs)
  · rcases ds with _ | ⟨m, ms⟩
    · intro h
      rw [List.getLast?_singleton] at h
      exact hlstrip_ne (Option.some.inj h)
    · rw [getLast?_cons_of_ne_nil (by simp)]
      obtain ⟨t, ht⟩ := List.dropWhile_suffix
        (l := (collapseGo limit 0 ((splitNl t3).map rstripLine)).rdropWhile
          (fun l => l.isEmpty)) (fun l => l.isEmpty)
      have hZne : (collapseGo limit 0 ((splitNl t3).map rstripLine)).rdropWhile
          (fun l => l.isEmpty) ≠ [] := by
        intro h
        rw [h] at hD
        simp at hD
      have hZlast : ¬ ((((collapseGo limit 0 ((splitNl t3).map rstripLine)).rdropWhile
          (fun l => l.isEmpty)).getLast hZne).isEmpty = true) :=
        List.rdropWhile_last_not _ _ hZne
      have hZl2 : ((collapseGo limit 0 ((splitNl t3).map rstripLine)).rdropWhile
          (fun l => l.isEmpty)).getLast? = (m :: ms).getLast? := by
        rw [← ht, List.getLast?_append_of_ne_nil t (by rw [hD]; simp), hD,
          getLast?_cons_of_ne_nil (by simp)]
      intro hcon
      rw [← hZl2] at hcon
      have h5 := List.getLast?_eq_getLast_of_ne_nil hZne
      rw [hcon] at h5
      apply hZlast
      rw [← Option.some.inj h5]
      rfl
  · have hr1 : runsOK limit 0 (collapseGo limit 0 ((splitNl t3).map rstripLine)) :=
      runsOK_collapseGo
    obtain ⟨t, ht⟩ := List.rdropWhile_prefix (fun l => List.isEmpty l)
      (collapseGo limit 0 ((splitNl t3).map rstripLine))
    rw [← ht] at hr1
    have hr2 := runsOK_append hr1
    have hr3 := runsOK_dropWhile hr2
    rw [hD, runsOK, if_neg hdne] at hr3
    rw [runsOK, if_neg hlstrip_ne]
    exact hr3

/-- Helper for C5: if the intermediate text `t3` (post BOM-filter, newline
canonicalization and tab expansion) is free of carriage returns, tabs and
BOMs, and the first-pass result is nonempty, then that result followed by a
newline is a fixed point of the normalizer. -/
theorem normalise_out_fixed {tab limit : Int} {t3 : List Char}
    (hcr : '\r' ∉ t3) (htab : '\t' ∉ t3) (hbom : '﻿' ∉ t3)
    (hz : pyStrip (joinNl (collapseGo limit 0
      ((splitNl t3).map rstripLine))) ≠ []) :
    normalise_whitespace (pyStrip (joinNl (collapseGo limit 0
      ((splitNl t3).map rstripLine))) ++ ['\n']) tab limit
      = pyStrip (joinNl (collapseGo limit 0
          ((splitNl t3).map rstripLine))) ++ ['\n'] := by
  obtain ⟨hrfix, hh, hws, hlastM, hrunsM⟩ := out_structure hz
  have hchar : ∀ c, c ∈ pyStrip (joinNl (collapseGo limit 0
      ((splitNl t3).map rstripLine))) → c ∈ t3 ∨ c = '\n' := by
    intro c hc
    have h1 := mem_pyStrip hc
    rcases mem_joinNl h1 with ⟨l, hl, hcl⟩ | h2
    · rcases mem_collapseGo hl with hl2 | rfl
      · obtain ⟨l0, hl0, rfl⟩ := List.mem_map.mp hl2
        exact Or.inl (mem_splitNl hl0 (mem_rstripLine hcl))
      · simp at hcl
    · exact Or.inr h2
  have hnl : ∀ l ∈ splitNl (pyStrip (joinNl (collapseGo limit 0
      ((splitNl t3).map rstripLine)))), '\n' ∉ l :=
    fun l hl => splitNl_mem_no_nl hl
  have hcr2 : ∀ l ∈ splitNl (pyStrip (joinNl (collapseGo limit 0
      ((splitNl t3).map rstripLine)))), '\r' ∉ l := by
    intro l hl hc
    rcases hchar _ (mem_splitNl hl hc) with h | h
    · exact hcr h
    · exact absurd h (by decide)
  have htab2 : ∀ l ∈ splitNl (pyStrip (joinNl (collapseGo limit 0
      ((splitNl t3).map rstripLine)))), '\t' ∉ l := by
    intro l hl hc
    rcases hchar _ (mem_splitNl hl hc) with h | h
    · exact htab h
    · exact absurd h (by decide)
  have hbom2 : ∀ l ∈ splitNl (pyStrip (joinNl (collapseGo limit 0
      ((splitNl t3).map rstripLine)))), '﻿' ∉ l := by
    intro l hl hc
    rcases hchar _ (mem_splitNl hl hc) with h | h
    · exact hbom h
    · exact absurd h (by decide)
  have hfix := @normalise_fixed (splitNl (pyStrip (joinNl (collapseGo limit 0
      ((splitNl t3).map rstripLine))))) tab limit (splitNl_ne_nil _)
    hnl hcr2 htab2 hbom2 hrfix hh hws hlastM hrunsM
  rw [joinNl_splitNl] at hfix
  exact hfix

/-- C5 counterexample: the SQL scanner is NOT idempotent.  On an input made
of a dash, a block comment and another dash, the first pass removes the
block comment, splicing the two surrounding dashes into `--`; the second
pass then reads `--` as a line comment opener and deletes it, so the second
pass changes the output of the first. -/
theorem C5_counterexample :
    strip_sql_comments (strip_sql_comments ("-/*x*/-".toList))
      ≠ strip_sql_comments ("-/*x*/-".toList) := by decide

/-- C5 (amended): the whitespace normalizer is idempotent — for every text,
tab width and blank-line limit, normalizing a normalized document returns it
unchanged.  (The original claim quantified over every core operation; the
SQL scanner refutes that, see `C5_counterexample`.) -/
theorem C5_normalizer_idempotent (text : List Char) (tab limit : Int) :
    normalise_whitespace (normalise_whitespace text tab limit) tab limit
      = normalise_whitespace text tab limit := by
  rw [normalise_eq text tab limit]
  by_cases hz : pyStrip (joinNl (collapseGo limit 0
      ((splitNl (expandTabsGo tab 0 (replCr (replCrlf
        (text.filter fun c => ¬ (c = '﻿')))))).map rstripLine))) = []
  · rw [if_pos hz]
    exact normalise_nil tab limit
  · rw [if_neg hz]
    refine normalise_out_fixed ?_ ?_ ?_ hz
    · intro h
      rcases mem_expandTabs h with h1 | h1
      · exact cr_not_mem_replCr _ h1
      · exact absurd h1 (by decide)
    · exact tab_not_mem_expandTabs
    · intro h
      rcases mem_expandTabs h with h1 | h1
      · rcases mem_replCr h1 with h2 | h2
        · have h3 := List.mem_filter.mp (mem_replCrlf h2)
          simp at h3
        · exact absurd h2 (by decide)
      · exact absurd h1 (by decide)
